import Mathlib

/-!
Shallow embedding of `src/poisson.hpp` (cuda-multigrid), a geometric multigrid
solver for the 2-D Poisson equation.

Modelling conventions:
* A flat field (C array of T) is a total function `ℕ → ℚ`; the row-major index
  of grid point (i, j) on an n×n grid is `j + i * n`, exactly as in the source.
* The C scalar type `T` (instantiated with floating-point types by the repo's
  drivers) is modelled by exact rationals `ℚ`; `-0.25` becomes `-(1/4)` etc.
* In-place mutation becomes explicit state passing: each operation takes the
  buffer it mutates and returns the updated buffer.  Buffers an operation only
  reads are separate arguments and are not returned, mirroring `const T *`.
* The C loops become structural recursions: `gsCols f n h i m u` is the state
  of `u` after the inner loop of `gauss_seidel` has processed row `i`,
  columns `1..m` in ascending order, and `gsRows f n h m u` the state after
  the outer loop has processed rows `1..m`.
* The external grid-transfer collaborators (`grid_restrict`, `grid_prolongate`,
  `grid_subtract`, `grid_l1norm` from `grid.hpp`, which is not part of this
  repository's sources) are modelled from the spec's collaborator contracts,
  parameterized by abstract interpolation kernels.
-/

/-- One interior-point update of the Gauss-Seidel sweep: the assignment
`u[j+i*n] = -0.25*(h*h*f[j+i*n] - u[j+1+i*n] - u[j-1+i*n] - u[j+(i+1)*n] - u[j+(i-1)*n])`
shared by `gauss_seidel` and `gauss_seidel_red_black` in poisson.hpp. -/
def gsUpdate (f : ℕ → ℚ) (n : ℕ) (h : ℚ) (i j : ℕ) (u : ℕ → ℚ) : ℕ → ℚ :=
  fun k =>
    if k = j + i * n then
      -(1/4) * (h * h * f (j + i * n)
        - u (j + 1 + i * n) - u (j - 1 + i * n)
        - u (j + (i + 1) * n) - u (j + (i - 1) * n))
    else u k

/-- Inner (column) loop of `gauss_seidel`: row `i`, columns `1..m` processed in
ascending order (C: `for (j = 1; j < n - 1; ++j)`). -/
def gsCols (f : ℕ → ℚ) (n : ℕ) (h : ℚ) (i : ℕ) : ℕ → (ℕ → ℚ) → (ℕ → ℚ)
  | 0, u => u
  | m + 1, u => gsUpdate f n h i (m + 1) (gsCols f n h i m u)

/-- Outer (row) loop of `gauss_seidel`: rows `1..m` processed in ascending
order (C: `for (i = 1; i < n - 1; ++i)`), each row swept over columns
`1..n-2`. -/
def gsRows (f : ℕ → ℚ) (n : ℕ) (h : ℚ) : ℕ → (ℕ → ℚ) → (ℕ → ℚ)
  | 0, u => u
  | m + 1, u => gsCols f n h (m + 1) (n - 2) (gsRows f n h m u)

/-- `gauss_seidel(u, f, n, h)` from poisson.hpp: one in-place natural-order
(row-major) Gauss-Seidel sweep over the interior points `1 ≤ i, j ≤ n-2`. -/
def gauss_seidel (u f : ℕ → ℚ) (n : ℕ) (h : ℚ) : ℕ → ℚ :=
  gsRows f n h (n - 2) u

/-- Guarded update of the red-black sweep: the body of both loop nests in
`gauss_seidel_red_black`, which performs the stencil update only when
`(i + j) % 2 == p` (p = 0 in the first pass, p = 1 in the second). -/
def rbUpdate (p : ℕ) (f : ℕ → ℚ) (n : ℕ) (h : ℚ) (i j : ℕ) (u : ℕ → ℚ) : ℕ → ℚ :=
  if (i + j) % 2 = p then gsUpdate f n h i j u else u

/-- Inner (column) loop of one pass of `gauss_seidel_red_black`. -/
def rbCols (p : ℕ) (f : ℕ → ℚ) (n : ℕ) (h : ℚ) (i : ℕ) : ℕ → (ℕ → ℚ) → (ℕ → ℚ)
  | 0, u => u
  | m + 1, u => rbUpdate p f n h i (m + 1) (rbCols p f n h i m u)

/-- Outer (row) loop of one pass of `gauss_seidel_red_black`. -/
def rbRows (p : ℕ) (f : ℕ → ℚ) (n : ℕ) (h : ℚ) : ℕ → (ℕ → ℚ) → (ℕ → ℚ)
  | 0, u => u
  | m + 1, u => rbCols p f n h (m + 1) (n - 2) (rbRows p f n h m u)

/-- `gauss_seidel_red_black(u, f, n, h)` from poisson.hpp: first the full
interior double loop updating only points with `(i+j) % 2 == 0`, then the
same double loop updating only points with `(i+j) % 2 == 1`. -/
def gauss_seidel_red_black (u f : ℕ → ℚ) (n : ℕ) (h : ℚ) : ℕ → ℚ :=
  rbRows 1 f n h (n - 2) (rbRows 0 f n h (n - 2) u)

/-- One interior-point write of `poisson_residual`:
`r[j+i*n] = f[j+i*n] - (u[j+1+i*n] + u[j-1+i*n] + -4.0*u[j+i*n] + u[j+(i+1)*n] + u[j+(i-1)*n]) * hi2`
with `hi2 = 1.0 / (h*h)`. -/
def resUpdate (u f : ℕ → ℚ) (n : ℕ) (h : ℚ) (i j : ℕ) (r : ℕ → ℚ) : ℕ → ℚ :=
  fun k =>
    if k = j + i * n then
      f (j + i * n) - (u (j + 1 + i * n) + u (j - 1 + i * n)
        + -(4 : ℚ) * u (j + i * n) + u (j + (i + 1) * n)
        + u (j + (i - 1) * n)) * (1 / (h * h))
    else r k

/-- Inner (column) loop of `poisson_residual`. -/
def resCols (u f : ℕ → ℚ) (n : ℕ) (h : ℚ) (i : ℕ) : ℕ → (ℕ → ℚ) → (ℕ → ℚ)
  | 0, r => r
  | m + 1, r => resUpdate u f n h i (m + 1) (resCols u f n h i m r)

/-- Outer (row) loop of `poisson_residual`. -/
def resRows (u f : ℕ → ℚ) (n : ℕ) (h : ℚ) : ℕ → (ℕ → ℚ) → (ℕ → ℚ)
  | 0, r => r
  | m + 1, r => resCols u f n h (m + 1) (n - 2) (resRows u f n h m r)

/-- `poisson_residual(r, u, f, n, h)` from poisson.hpp: writes the discrete
residual `f - Lu` on the interior points of `r`; `u` and `f` are read only. -/
def poisson_residual (r u f : ℕ → ℚ) (n : ℕ) (h : ℚ) : ℕ → ℚ :=
  resRows u f n h (n - 2) r

/-- `base_case(u, f, h)` from poisson.hpp: `u[1 + 3*1] = -0.5 * f[1 + 3*1] * h * h`
(the single interior unknown of the 3×3 coarsest grid). -/
def base_case (u f : ℕ → ℚ) (h : ℚ) : ℕ → ℚ :=
  fun k =>
    if k = 1 + 3 * 1 then -(1/2) * f (1 + 3 * 1) * h * h else u k

/-- View of a buffer starting at a byte-element offset: the C pointer `b + off`. -/
def view (b : ℕ → ℚ) (off : ℕ) : ℕ → ℚ :=
  fun k => b (off + k)

/-- Writing through a pointer `b + off`: the buffer whose contents from `off`
onward are given by `g` (as a zero-based field) and whose contents below `off`
are untouched.  This is the exact functional image of calling an operation on
the pointer `b + off` when that operation, like every one in poisson.hpp,
never forms a negative index. -/
def applyAt (b : ℕ → ℚ) (off : ℕ) (g : ℕ → ℚ) : ℕ → ℚ :=
  fun k => if off ≤ k then g (k - off) else b k

/-- Type of the abstract interpolation kernels of the external grid-transfer
collaborators: given dst dims, src dims and the src field, the pure
interpolated value at a dst index.  `grid.hpp` is not part of this
repository's sources, so only the spec's contract is modelled. -/
def GridKer : Type :=
  ℕ → ℕ → ℕ → ℕ → (ℕ → ℚ) → ℕ → ℚ

/-- Modelled from the spec: `restrict(dst, dst_n, dst_m, src, src_n, src_m,
existing_weight, incoming_weight)` computes
`dst ← existing_weight·dst + incoming_weight·Restriction(src)` on the
`dst_n × dst_m` shape and touches nothing else; the Restriction stencil itself
(external, in grid.hpp which is missing from src/) is the abstract kernel
`K`. -/
def grid_restrict (K : GridKer) (dst : ℕ → ℚ) (dn dm : ℕ) (src : ℕ → ℚ)
    (sn sm : ℕ) (ew iw : ℚ) : ℕ → ℚ :=
  fun k => if k < dn * dm then ew * dst k + iw * K dn dm sn sm src k else dst k

/-- Modelled from the spec: `prolongate(dst, dst_n, dst_m, src, src_n, src_m,
existing_weight, incoming_weight)` computes
`dst ← existing_weight·dst + incoming_weight·Interpolation(src)` on the
`dst_n × dst_m` shape and touches nothing else; the Interpolation stencil
itself (external, in grid.hpp which is missing from src/) is the abstract
kernel `K`. -/
def grid_prolongate (K : GridKer) (dst : ℕ → ℚ) (dn dm : ℕ) (src : ℕ → ℚ)
    (sn sm : ℕ) (ew iw : ℚ) : ℕ → ℚ :=
  fun k => if k < dn * dm then ew * dst k + iw * K dn dm sn sm src k else dst k

/-- Modelled from the spec: `subtract(dst, a, b, n, m)` sets `dst = a - b`
elementwise over an `n × m` field (grid.hpp is missing from src/). -/
def grid_subtract (dst a b : ℕ → ℚ) (n m : ℕ) : ℕ → ℚ :=
  fun k => if k < n * m then a k - b k else dst k

/-- Modelled from the spec: `l1norm(field, n, m, hx, hy)` returns the discrete
L1 norm of an `n × m` field weighted by the cell area `hx·hy` (grid.hpp is
missing from src/). -/
def grid_l1norm (x : ℕ → ℚ) (n m : ℕ) (hx hy : ℚ) : ℚ :=
  hx * hy * ∑ k ∈ Finset.range (n * m), |x k|

/-- The operator bundle a V-cycle is instantiated with: the smoother template
parameter `S` of `multigrid_v_cycle` (a callable on `(u, f, n, h)`), and the
two abstract grid-transfer kernels of the external collaborators. -/
structure GridOps where
  Sm : (ℕ → ℚ) → (ℕ → ℚ) → ℕ → ℚ → (ℕ → ℚ)
  Rker : GridKer
  Pker : GridKer

/-- The mutable state threaded through the recursion of `multigrid_v_cycle`
besides the solution field: the finest-level residual scratch buffer `r` and
the two arenas `v` (corrections) and `w` (restricted residuals).  The C code
passes the base pointers `r`, `v`, `w` unchanged to every recursive call. -/
structure MGState where
  r : ℕ → ℚ
  v : ℕ → ℚ
  w : ℕ → ℚ

/-- `(2^l + 1)^2`, the element count of the level-`l` grid (`nu * nu` resp.
`nv * nv` in `multigrid_v_cycle`, with `nu = (1 << l) + 1`). -/
def nsq (l : ℕ) : ℕ :=
  (2 ^ l + 1) * (2 ^ l + 1)

/-- Steps of the recursive case of `multigrid_v_cycle` executed before the
recursive call, at a recursion depth where the solution field `u` is the
region of arena `v` at offset `off` and the right-hand side `f` is the region
of arena `w` at the same offset (which is how every recursive call of the C
code positions them: `el = &v[nv*nv]`, `rl = &w[nv*nv]`): pre-smooth,
residual into `r`, restrict `r` into `w` at offset `nv*nv` with weights
`(0, 1)`. -/
def vcyclePre (G : GridOps) (l off : ℕ) (s : MGState) (h : ℚ) : MGState :=
  let nu := 2 ^ l + 1
  let nv := 2 ^ (l - 1) + 1
  let v1 := applyAt s.v off (G.Sm (view s.v off) (view s.w off) nu h)
  let r1 := poisson_residual s.r (view v1 off) (view s.w off) nu h
  let w1 := applyAt s.w (nv * nv)
    (grid_restrict G.Rker (view s.w (nv * nv)) nv nv r1 nu nu 0 1)
  ⟨r1, v1, w1⟩

/-- Steps of the recursive case of `multigrid_v_cycle` executed after the
recursive call, in the same offset-view presentation as `vcyclePre`:
prolongate the correction `v` at offset `nv*nv` onto `u` with weights
`(1, 1)`, then post-smooth. -/
def vcyclePost (G : GridOps) (l off : ℕ) (s : MGState) (h : ℚ) : MGState :=
  let nu := 2 ^ l + 1
  let nv := 2 ^ (l - 1) + 1
  let v3 := applyAt s.v off
    (grid_prolongate G.Pker (view s.v off) nu nu (view s.v (nv * nv)) nv nv 1 1)
  let v4 := applyAt v3 off (G.Sm (view v3 off) (view s.w off) nu h)
  ⟨s.r, v4, s.w⟩

/-- The recursive calls of `multigrid_v_cycle`: at every non-topmost level the
solution field is `&v[off]` and the right-hand side `&w[off]` (the C call is
`multigrid_v_cycle(l-1, smoother, el, rl, r, v, w, 2*h)` with
`el = &v[nv*nv]`, `rl = &w[nv*nv]`), so the state is just `(r, v, w)` plus
the offset.  `l = 0` is a caller precondition violation in the C code
(spec §7: behavior undefined, `1 << (l-1)` shifts by -1); it is modelled as a
no-op. -/
def vcycleInner (G : GridOps) : ℕ → ℕ → MGState → ℚ → MGState
  | 0, _, s, _ => s
  | 1, off, s, h =>
      ⟨s.r, applyAt s.v off (base_case (view s.v off) (view s.w off) h), s.w⟩
  | l + 2, off, s, h =>
      let nv := 2 ^ (l + 1) + 1
      let s1 := vcyclePre G (l + 2) off s h
      let s2 := vcycleInner G (l + 1) (nv * nv) s1 (2 * h)
      vcyclePost G (l + 2) off s2 h

/-- Result of the topmost call of `multigrid_v_cycle`: the updated solution
field `u` (a buffer of its own, owned by the Problem) and the updated
scratch state `(r, v, w)`. -/
structure TopResult where
  u : ℕ → ℚ
  s : MGState

/-- `multigrid_v_cycle(l, smoother, u, f, r, v, w, h)` from poisson.hpp, as
invoked by `Multigrid::operator()`, where `u` and `f` are the Problem's own
finest-level buffers (distinct from the arenas).  For `l = 1` it performs
only `base_case(u, f, h)`.  For `l ≥ 2`: pre-smooth `u`; residual into `r`;
`grid_restrict(&w[nv*nv], nv, nv, r, nu, nu, 0.0, 1.0)`; recurse at level
`l-1` on `el = &v[nv*nv]`, `rl = &w[nv*nv]` with spacing `2*h`;
`grid_prolongate(u, nu, nu, el, nv, nv, 1.0, 1.0)`; post-smooth `u`.
`l = 0` is a caller precondition violation (spec §7), modelled as a no-op. -/
def multigrid_v_cycle (G : GridOps) (l : ℕ) (u f r v w : ℕ → ℚ) (h : ℚ) :
    TopResult :=
  match l with
  | 0 => ⟨u, ⟨r, v, w⟩⟩
  | 1 => ⟨base_case u f h, ⟨r, v, w⟩⟩
  | l' + 2 =>
      let nu := 2 ^ (l' + 2) + 1
      let nv := 2 ^ (l' + 1) + 1
      let u1 := G.Sm u f nu h
      let r1 := poisson_residual r u1 f nu h
      let w1 := applyAt w (nv * nv)
        (grid_restrict G.Rker (view w (nv * nv)) nv nv r1 nu nu 0 1)
      let s2 := vcycleInner G (l' + 1) (nv * nv) ⟨r1, v, w1⟩ (2 * h)
      let u2 := grid_prolongate G.Pker u1 nu nu (view s2.v (nv * nv)) nv nv 1 1
      let u3 := G.Sm u2 f nu h
      ⟨u3, s2⟩

/-- `multigrid_size(l)` from poisson.hpp: the loop
`for (i = 0; i <= l; ++i) { n = (1 << i) + 1; size += n * n; }`. -/
def multigrid_size (l : ℕ) : ℕ :=
  (List.range (l + 1)).foldl (fun size i => size + ((2 ^ i + 1) * (2 ^ i + 1))) 0

/-- One recursive call performed during a V-cycle: the callee's level, the
offset of its solution field in arena `v` (equal to the offset of its
right-hand side in arena `w`), and the scratch state at the moment of the
call. -/
structure CallEntry where
  lvl : ℕ
  off : ℕ
  st : MGState

/-- The sequence of recursive calls issued below a `vcycleInner` invocation,
including states at the moment of each call; it recomputes exactly the
intermediate states of `vcycleInner` (same `vcyclePre` prefix). -/
def vcycleInnerEntries (G : GridOps) : ℕ → ℕ → MGState → ℚ → List CallEntry
  | 0, _, _, _ => []
  | 1, _, _, _ => []
  | l + 2, off, s, h =>
      let nv := 2 ^ (l + 1) + 1
      let s1 := vcyclePre G (l + 2) off s h
      ⟨l + 1, nv * nv, s1⟩ :: vcycleInnerEntries G (l + 1) (nv * nv) s1 (2 * h)

/-- The sequence of recursive calls issued during one topmost
`multigrid_v_cycle(l, ...)` invocation (the entry call itself is not an
element); it recomputes exactly the intermediate states of
`multigrid_v_cycle`. -/
def vcycleEntries (G : GridOps) (l : ℕ) (u f r v w : ℕ → ℚ) (h : ℚ) :
    List CallEntry :=
  match l with
  | 0 => []
  | 1 => []
  | l' + 2 =>
      let nu := 2 ^ (l' + 2) + 1
      let nv := 2 ^ (l' + 1) + 1
      let u1 := G.Sm u f nu h
      let r1 := poisson_residual r u1 f nu h
      let w1 := applyAt w (nv * nv)
        (grid_restrict G.Rker (view w (nv * nv)) nv nv r1 nu nu 0 1)
      ⟨l' + 1, nv * nv, ⟨r1, v, w1⟩⟩ ::
        vcycleInnerEntries G (l' + 1) (nv * nv) ⟨r1, v, w1⟩ (2 * h)

/-- The descending list `[m, m-1, ..., 1]` of levels a V-cycle recurses
through. -/
def descList : ℕ → List ℕ
  | 0 => []
  | m + 1 => (m + 1) :: descList m

/-- State of the `Poisson<T>` problem container: grid parameters and the
three finest-level fields `u`, `f`, `r`. -/
structure PoissonState where
  n : ℕ
  h : ℚ
  modes : ℚ
  u : ℕ → ℚ
  f : ℕ → ℚ
  r : ℕ → ℚ

/-- `exact_solution(u, n, h, modes)` from poisson.hpp:
`u[j + n*i] = sin(s*h*j) * sin(s*h*i)` for all `0 ≤ i, j < n`, with
`s = 2*pi*modes/(h*(n-1))`; entries beyond the `n*n` grid keep their prior
value `u0`.  The transcendental `sin` and the constant `pi` have no exact
rational counterpart, so they are abstract parameters `sn` and `pq`. -/
def exact_solution (sn : ℚ → ℚ) (pq : ℚ) (u0 : ℕ → ℚ) (n : ℕ) (h modes : ℚ) :
    ℕ → ℚ :=
  fun k =>
    if k < n * n then
      sn (2 * pq * modes / (h * (n - 1 : ℕ)) * h * (k % n))
        * sn (2 * pq * modes / (h * (n - 1 : ℕ)) * h * (k / n))
    else u0 k

/-- `Poisson::error()` from poisson.hpp: allocate a zeroed temporary `v`, fill
it with `exact_solution`, overwrite `r` with `grid_subtract(r, u, v, n, n)`,
and return `grid_l1norm(r, n, n, h, h)`.  Returns the error value together
with the updated container state. -/
def Poisson_error (sn : ℚ → ℚ) (pq : ℚ) (p : PoissonState) : ℚ × PoissonState :=
  let v := exact_solution sn pq (fun _ => 0) p.n p.h p.modes
  let r1 := grid_subtract p.r p.u v p.n p.n
  (grid_l1norm r1 p.n p.n p.h p.h, ⟨p.n, p.h, p.modes, p.u, p.f, r1⟩)

/-- `Poisson::residual()` from poisson.hpp: recompute `r` in place via
`poisson_residual(r, u, f, n, h)`. -/
def Poisson_residual_op (p : PoissonState) : PoissonState :=
  ⟨p.n, p.h, p.modes, p.u, p.f, poisson_residual p.r p.u p.f p.n p.h⟩

/-- `Poisson::norm()` from poisson.hpp: `grid_l1norm(r, n, n, h, h)`. -/
def Poisson_norm (p : PoissonState) : ℚ :=
  grid_l1norm p.r p.n p.n p.h p.h

/-- Interior-point predicate on flat indices: `k = j + i*n` for some
`1 ≤ i, j ≤ n-2` (equivalently, the decoded coordinates `k / n`, `k % n` are
interior). -/
def isInteriorIdx (n k : ℕ) : Prop :=
  k < n * n ∧ 1 ≤ k / n ∧ k / n ≤ n - 2 ∧ 1 ≤ k % n ∧ k % n ≤ n - 2

instance instDecIsInteriorIdx (n k : ℕ) : Decidable (isInteriorIdx n k) := by
  unfold isInteriorIdx
  exact inferInstance

/-- The interior lattice points `(i, j)`, `1 ≤ i, j ≤ n-2`, in the row-major
order of the C loop nests (i outer ascending, j inner ascending). -/
def interiorPairs (n : ℕ) : List (ℕ × ℕ) :=
  (List.range (n - 2)).flatMap fun a => (List.range (n - 2)).map fun b => (a + 1, b + 1)

/-- Flat row-major key of a lattice point. -/
def keyOf (n : ℕ) (q : ℕ × ℕ) : ℕ :=
  q.2 + q.1 * n

/-- The interior points of color `p` (parity of `i + j`), in row-major order:
exactly the points the pass-`p` loop nest of `gauss_seidel_red_black`
updates. -/
def rbPairs (n p : ℕ) : List (ℕ × ℕ) :=
  (interiorPairs n).filter fun q => (q.1 + q.2) % 2 == p

/-- The value the red-black stencil update writes at flat index `k`, reading
the four neighbour values from the field `u`. -/
def rbSimVal (f : ℕ → ℚ) (n : ℕ) (h : ℚ) (u : ℕ → ℚ) (k : ℕ) : ℚ :=
  -(1/4) * (h * h * f k - u (k + 1) - u (k - 1) - u (k + n) - u (k - n))

/-- Simultaneous (Jacobi-style) color-`p` pass: every interior point of color
`p` is updated at once from the single state `u`.  The claim is that each
in-place pass of `gauss_seidel_red_black` computes exactly this. -/
def rbSimPass (p : ℕ) (f : ℕ → ℚ) (n : ℕ) (h : ℚ) (u : ℕ → ℚ) : ℕ → ℚ :=
  fun k =>
    if isInteriorIdx n k ∧ (k / n + k % n) % 2 = p then rbSimVal f n h u k
    else u k

/-- Discrete maximum norm over the `n*n` entries of a field. -/
def maxnorm (n : ℕ) (u : ℕ → ℚ) : ℚ :=
  ((List.range (n * n)).map fun k => |u k|).foldl max 0

/-- Pointwise agreement of two buffers below an index bound. -/
def agreeBelow (a b : ℕ → ℚ) (m : ℕ) : Prop :=
  ∀ k, k < m → a k = b k

/-- Trivial operator bundle (identity smoother, zero kernels), used to
instantiate universally quantified theorems at a concrete input. -/
def trivOps : GridOps :=
  ⟨fun u _ _ _ => u, fun _ _ _ _ _ _ => 0, fun _ _ _ _ _ _ => 0⟩

/-- The all-zero field. -/
def zeroF : ℕ → ℚ :=
  fun _ => 0

/-! ### Index decoding lemmas -/

lemma key_div {n i j : ℕ} (hj : j < n) : (j + i * n) / n = i := by
  have hn : 0 < n := lt_of_le_of_lt (Nat.zero_le j) hj
  rw [Nat.add_mul_div_right _ _ hn, Nat.div_eq_of_lt hj, Nat.zero_add]

lemma key_mod {n i j : ℕ} (hj : j < n) : (j + i * n) % n = j := by
  rw [Nat.add_mul_mod_self_right, Nat.mod_eq_of_lt hj]

lemma key_inj {n i j i' j' : ℕ} (hj : j < n) (hj' : j' < n)
    (e : j + i * n = j' + i' * n) : i = i' ∧ j = j' := by
  constructor
  · have := congrArg (· / n) e
    simpa [key_div hj, key_div hj'] using this
  · have := congrArg (· % n) e
    simpa [key_mod hj, key_mod hj'] using this

lemma interior_key {n i j : ℕ} (hi1 : 1 ≤ i) (hi2 : i ≤ n - 2)
    (hj1 : 1 ≤ j) (hj2 : j ≤ n - 2) : isInteriorIdx n (j + i * n) := by
  have hn : 3 ≤ n := by omega
  have hi2' : i + 2 ≤ n := by omega
  have hj' : j < n := by omega
  have hlt : j + i * n < n * n := by
    have h1 : (i + 2) * n ≤ n * n := Nat.mul_le_mul_right n hi2'
    have h2 : i * n + 2 * n ≤ n * n := by
      calc i * n + 2 * n = (i + 2) * n := by ring
        _ ≤ n * n := h1
    have h3 : j < 2 * n := by omega
    omega
  refine ⟨hlt, ?_, ?_, ?_, ?_⟩
  · rw [key_div hj']; exact hi1
  · rw [key_div hj']; exact hi2
  · rw [key_mod hj']; exact hj1
  · rw [key_mod hj']; exact hj2

lemma not_interior_ne_key {n k i j : ℕ} (hk : ¬ isInteriorIdx n k)
    (hi1 : 1 ≤ i) (hi2 : i ≤ n - 2) (hj1 : 1 ≤ j) (hj2 : j ≤ n - 2) :
    k ≠ j + i * n := by
  intro e
  exact hk (e ▸ interior_key hi1 hi2 hj1 hj2)

/-! ### Pointwise and frame lemmas for the sweeps -/

lemma gsUpdate_self (f : ℕ → ℚ) (n : ℕ) (h : ℚ) (i j : ℕ) (u : ℕ → ℚ) :
    gsUpdate f n h i j u (j + i * n) =
      -(1/4) * (h * h * f (j + i * n)
        - u (j + 1 + i * n) - u (j - 1 + i * n)
        - u (j + (i + 1) * n) - u (j + (i - 1) * n)) := by
  simp [gsUpdate]

lemma gsUpdate_of_ne {k : ℕ} (f : ℕ → ℚ) (n : ℕ) (h : ℚ) (i j : ℕ) (u : ℕ → ℚ)
    (hk : k ≠ j + i * n) : gsUpdate f n h i j u k = u k := by
  simp [gsUpdate, hk]

lemma gsCols_of_ne (f : ℕ → ℚ) (n : ℕ) (h : ℚ) (i : ℕ) {k : ℕ} :
    ∀ m (u : ℕ → ℚ), (∀ j', 1 ≤ j' → j' ≤ m → k ≠ j' + i * n) →
      gsCols f n h i m u k = u k := by
  intro m
  induction m with
  | zero => intro u _; rfl
  | succ m ih =>
      intro u hne
      rw [gsCols, gsUpdate_of_ne _ _ _ _ _ _ (hne (m + 1) (by omega) le_rfl)]
      exact ih u fun j' h1 h2 => hne j' h1 (by omega)

lemma gsRows_of_ne (f : ℕ → ℚ) (n : ℕ) (h : ℚ) {k : ℕ} :
    ∀ m (u : ℕ → ℚ),
      (∀ i' j', 1 ≤ i' → i' ≤ m → 1 ≤ j' → j' ≤ n - 2 → k ≠ j' + i' * n) →
      gsRows f n h m u k = u k := by
  intro m
  induction m with
  | zero => intro u _; rfl
  | succ m ih =>
      intro u hne
      rw [gsRows, gsCols_of_ne _ _ _ _ _ _
        (fun j' h1 h2 => hne (m + 1) j' (by omega) le_rfl h1 h2)]
      exact ih u fun i' j' h1 h2 h3 h4 => hne i' j' h1 (by omega) h3 h4

lemma rbUpdate_of_ne {k : ℕ} (p : ℕ) (f : ℕ → ℚ) (n : ℕ) (h : ℚ) (i j : ℕ)
    (u : ℕ → ℚ) (hk : k ≠ j + i * n) : rbUpdate p f n h i j u k = u k := by
  unfold rbUpdate
  split
  · exact gsUpdate_of_ne _ _ _ _ _ _ hk
  · rfl

lemma rbCols_of_ne (p : ℕ) (f : ℕ → ℚ) (n : ℕ) (h : ℚ) (i : ℕ) {k : ℕ} :
    ∀ m (u : ℕ → ℚ), (∀ j', 1 ≤ j' → j' ≤ m → k ≠ j' + i * n) →
      rbCols p f n h i m u k = u k := by
  intro m
  induction m with
  | zero => intro u _; rfl
  | succ m ih =>
      intro u hne
      rw [rbCols, rbUpdate_of_ne _ _ _ _ _ _ _ (hne (m + 1) (by omega) le_rfl)]
      exact ih u fun j' h1 h2 => hne j' h1 (by omega)

lemma rbRows_of_ne (p : ℕ) (f : ℕ → ℚ) (n : ℕ) (h : ℚ) {k : ℕ} :
    ∀ m (u : ℕ → ℚ),
      (∀ i' j', 1 ≤ i' → i' ≤ m → 1 ≤ j' → j' ≤ n - 2 → k ≠ j' + i' * n) →
      rbRows p f n h m u k = u k := by
  intro m
  induction m with
  | zero => intro u _; rfl
  | succ m ih =>
      intro u hne
      rw [rbRows, rbCols_of_ne _ _ _ _ _ _ _
        (fun j' h1 h2 => hne (m + 1) j' (by omega) le_rfl h1 h2)]
      exact ih u fun i' j' h1 h2 h3 h4 => hne i' j' h1 (by omega) h3 h4

lemma resUpdate_of_ne {k : ℕ} (u f : ℕ → ℚ) (n : ℕ) (h : ℚ) (i j : ℕ)
    (r : ℕ → ℚ) (hk : k ≠ j + i * n) : resUpdate u f n h i j r k = r k := by
  simp [resUpdate, hk]

lemma resCols_of_ne (u f : ℕ → ℚ) (n : ℕ) (h : ℚ) (i : ℕ) {k : ℕ} :
    ∀ m (r : ℕ → ℚ), (∀ j', 1 ≤ j' → j' ≤ m → k ≠ j' + i * n) →
      resCols u f n h i m r k = r k := by
  intro m
  induction m with
  | zero => intro r _; rfl
  | succ m ih =>
      intro r hne
      rw [resCols, resUpdate_of_ne _ _ _ _ _ _ _ (hne (m + 1) (by omega) le_rfl)]
      exact ih r fun j' h1 h2 => hne j' h1 (by omega)

lemma resRows_of_ne (u f : ℕ → ℚ) (n : ℕ) (h : ℚ) {k : ℕ} :
    ∀ m (r : ℕ → ℚ),
      (∀ i' j', 1 ≤ i' → i' ≤ m → 1 ≤ j' → j' ≤ n - 2 → k ≠ j' + i' * n) →
      resRows u f n h m r k = r k := by
  intro m
  induction m with
  | zero => intro r _; rfl
  | succ m ih =>
      intro r hne
      rw [resRows, resCols_of_ne _ _ _ _ _ _ _
        (fun j' h1 h2 => hne (m + 1) j' (by omega) le_rfl h1 h2)]
      exact ih r fun i' j' h1 h2 h3 h4 => hne i' j' h1 (by omega) h3 h4

/-- `gauss_seidel` leaves every non-interior index unchanged. -/
lemma gauss_seidel_frame {n k : ℕ} (u f : ℕ → ℚ) (h : ℚ)
    (hk : ¬ isInteriorIdx n k) : gauss_seidel u f n h k = u k :=
  gsRows_of_ne f n h _ u fun i' j' h1 h2 h3 h4 =>
    not_interior_ne_key hk h1 h2 h3 h4

/-- `gauss_seidel_red_black` leaves every non-interior index unchanged. -/
lemma gauss_seidel_red_black_frame {n k : ℕ} (u f : ℕ → ℚ) (h : ℚ)
    (hk : ¬ isInteriorIdx n k) : gauss_seidel_red_black u f n h k = u k := by
  unfold gauss_seidel_red_black
  rw [rbRows_of_ne _ _ _ _ _ _ (fun i' j' h1 h2 h3 h4 =>
      not_interior_ne_key hk h1 h2 h3 h4),
    rbRows_of_ne _ _ _ _ _ _ (fun i' j' h1 h2 h3 h4 =>
      not_interior_ne_key hk h1 h2 h3 h4)]

/-- `poisson_residual` leaves every non-interior index of `r` unchanged. -/
lemma poisson_residual_frame {n k : ℕ} (r u f : ℕ → ℚ) (h : ℚ)
    (hk : ¬ isInteriorIdx n k) : poisson_residual r u f n h k = r k :=
  resRows_of_ne u f n h _ r fun i' j' h1 h2 h3 h4 =>
    not_interior_ne_key hk h1 h2 h3 h4

lemma boundary_not_interior {n k : ℕ} (hk : k < n * n)
    (hb : k / n = 0 ∨ k / n = n - 1 ∨ k % n = 0 ∨ k % n = n - 1) (hn : 3 ≤ n) :
    ¬ isInteriorIdx n k := by
  unfold isInteriorIdx
  omega

/-- C7: boundary entries (decoded row or column equal to 0 or n-1) survive any
number of invocations of either smoother unchanged, and one invocation of the
residual operator leaves the boundary entries of `r` unchanged.  (That the
smoothers never write `f`, and that `poisson_residual` never writes `u` or
`f`, is structural in this embedding: those arguments are read-only and only
the mutated buffer is returned, mirroring the `const T *` parameters.) -/
theorem C7_boundary_invariant (u f r : ℕ → ℚ) (n : ℕ) (h : ℚ) (m k : ℕ)
    (hn : 3 ≤ n) (hk : k < n * n)
    (hb : k / n = 0 ∨ k / n = n - 1 ∨ k % n = 0 ∨ k % n = n - 1) :
    (fun x => gauss_seidel x f n h)^[m] u k = u k ∧
    (fun x => gauss_seidel_red_black x f n h)^[m] u k = u k ∧
    poisson_residual r u f n h k = r k := by
  have hni : ¬ isInteriorIdx n k := boundary_not_interior hk hb hn
  refine ⟨?_, ?_, poisson_residual_frame r u f h hni⟩
  · induction m with
    | zero => rfl
    | succ m ih =>
        rw [Function.iterate_succ_apply']
        exact (gauss_seidel_frame _ f h hni).trans ih
  · induction m with
    | zero => rfl
    | succ m ih =>
        rw [Function.iterate_succ_apply']
        exact (gauss_seidel_red_black_frame _ f h hni).trans ih

/-- Witness for C7 at a concrete input. -/
theorem C7_boundary_invariant_w :
    (fun x => gauss_seidel x zeroF 3 1)^[2] zeroF 1 = zeroF 1 ∧
    (fun x => gauss_seidel_red_black x zeroF 3 1)^[2] zeroF 1 = zeroF 1 ∧
    poisson_residual zeroF zeroF zeroF 3 1 1 = zeroF 1 :=
  C7_boundary_invariant zeroF zeroF zeroF 3 1 2 1 (by norm_num) (by norm_num)
    (by norm_num)

/-! ### Stability of already-processed points under later updates -/

lemma gsCols_stable (f : ℕ → ℚ) (n : ℕ) (h : ℚ) (i : ℕ) {k : ℕ} :
    ∀ d m (u : ℕ → ℚ), (∀ j', m + 1 ≤ j' → j' ≤ m + d → k ≠ j' + i * n) →
      gsCols f n h i (m + d) u k = gsCols f n h i m u k := by
  intro d
  induction d with
  | zero => intro m u _; rfl
  | succ d ih =>
      intro m u hne
      have e : m + (d + 1) = (m + d) + 1 := by omega
      rw [e, gsCols, gsUpdate_of_ne _ _ _ _ _ _ (hne (m + d + 1) (by omega) (by omega))]
      exact ih m u fun j' h1 h2 => hne j' h1 (by omega)

lemma gsRows_stable (f : ℕ → ℚ) (n : ℕ) (h : ℚ) {k : ℕ} :
    ∀ d m (u : ℕ → ℚ),
      (∀ i' j', m + 1 ≤ i' → i' ≤ m + d → 1 ≤ j' → j' ≤ n - 2 → k ≠ j' + i' * n) →
      gsRows f n h (m + d) u k = gsRows f n h m u k := by
  intro d
  induction d with
  | zero => intro m u _; rfl
  | succ d ih =>
      intro m u hne
      have e : m + (d + 1) = (m + d) + 1 := by omega
      rw [e, gsRows, gsCols_of_ne _ _ _ _ _ _
        (fun j' h1 h2 => hne (m + d + 1) j' (by omega) (by omega) h1 h2)]
      exact ih m u fun i' j' h1 h2 h3 h4 => hne i' j' h1 (by omega) h3 h4

/-- The value of the finished sweep at an interior point `(i, jj)` is the
value already present after that point's own row-prefix has been processed:
later columns of row `i` and later rows never rewrite it. -/
lemma gauss_seidel_point (u f : ℕ → ℚ) (n : ℕ) (h : ℚ) {i jj : ℕ}
    (hi1 : 1 ≤ i) (hi2 : i ≤ n - 2) (hj1 : 1 ≤ jj) (hj2 : jj ≤ n - 2) :
    gauss_seidel u f n h (jj + i * n) =
      gsCols f n h i jj (gsRows f n h (i - 1) u) (jj + i * n) := by
  have hjn : jj < n := by omega
  unfold gauss_seidel
  have e1 : n - 2 = i + (n - 2 - i) := by omega
  rw [e1, gsRows_stable f n h _ i u (fun i' j' h1 h2 h3 h4 => by
    intro e
    have := key_inj (n := n) (by omega : j' < n) hjn e.symm
    omega)]
  have e2 : i = (i - 1) + 1 := by omega
  rw [e2, gsRows]
  rw [show (i - 1) + 1 = i by omega]
  have e3 : n - 2 = jj + (n - 2 - jj) := by omega
  rw [e3, gsCols_stable f n h i _ jj _ (fun j' h1 h2 => by
    intro e
    have := key_inj (n := n) (by omega : j' < n) hjn e.symm
    omega)]

/-- C6: `gauss_seidel` is one row-major in-place sweep: at every interior
point, the final field satisfies the data-dependent Gauss-Seidel relation in
which the west `(i,j-1)` and north `(i-1,j)` reads are the already-updated
(final) values and the east `(i,j+1)` and south `(i+1,j)` reads are the
pre-sweep values; every non-interior entry is untouched (exactly one sweep
over the interior `1 ≤ i, j ≤ n-2`). -/
theorem C6_gauss_seidel_sweep (u f : ℕ → ℚ) (n : ℕ) (h : ℚ) (i j : ℕ)
    (hi1 : 1 ≤ i) (hi2 : i ≤ n - 2) (hj1 : 1 ≤ j) (hj2 : j ≤ n - 2) :
    gauss_seidel u f n h (j + i * n) =
      -(1/4) * (h * h * f (j + i * n)
        - u (j + 1 + i * n) - gauss_seidel u f n h (j - 1 + i * n)
        - u (j + (i + 1) * n) - gauss_seidel u f n h (j + (i - 1) * n)) ∧
    (∀ k, ¬ isInteriorIdx n k → gauss_seidel u f n h k = u k) := by
  have hjn : j < n := by omega
  have hin : i < n := by omega
  constructor
  · have hpoint := gauss_seidel_point u f n h hi1 hi2 hj1 hj2
    have e2 : j = (j - 1) + 1 := by omega
    rw [hpoint, e2, gsCols]
    rw [show (j - 1) + 1 = j by omega]
    rw [gsUpdate_self]
    -- the four neighbour reads of the state at the moment of the update
    have hR1 : gsCols f n h i (j - 1) (gsRows f n h (i - 1) u) (j + 1 + i * n)
        = u (j + 1 + i * n) := by
      rw [gsCols_of_ne f n h i _ _ (fun j' h1 h2 => by
        intro e
        have : j + 1 + i * n = (j + 1) + i * n := by ring
        rw [this] at e
        have := key_inj (n := n) (by omega : j' < n) (by omega : j + 1 < n) e.symm
        omega)]
      rw [gsRows_of_ne f n h _ _ (fun i' j' h1 h2 h3 h4 => by
        intro e
        have : j + 1 + i * n = (j + 1) + i * n := by ring
        rw [this] at e
        have := key_inj (n := n) (by omega : j' < n) (by omega : j + 1 < n) e.symm
        omega)]
    have hR2 : gsCols f n h i (j - 1) (gsRows f n h (i - 1) u) (j + (i + 1) * n)
        = u (j + (i + 1) * n) := by
      rw [gsCols_of_ne f n h i _ _ (fun j' h1 h2 => by
        intro e
        have := key_inj (n := n) (by omega : j' < n) hjn e.symm
        omega)]
      rw [gsRows_of_ne f n h _ _ (fun i' j' h1 h2 h3 h4 => by
        intro e
        have := key_inj (n := n) (by omega : j' < n) hjn e.symm
        omega)]
    have hR3 : gsCols f n h i (j - 1) (gsRows f n h (i - 1) u) (j - 1 + i * n)
        = gauss_seidel u f n h (j - 1 + i * n) := by
      by_cases hj2' : 2 ≤ j
      · have := gauss_seidel_point u f n h hi1 hi2
          (by omega : 1 ≤ j - 1) (by omega : j - 1 ≤ n - 2)
        rw [this]
      · -- j = 1: the west neighbour is the column-0 boundary, untouched on
        -- both sides
        have hj1' : j = 1 := by omega
        subst hj1'
        have hb : ¬ isInteriorIdx n (1 - 1 + i * n) := by
          intro hint
          have : (0 + i * n) % n = 0 := key_mod (by omega : 0 < n)
          unfold isInteriorIdx at hint
          simp only [show (1 : ℕ) - 1 = 0 from rfl] at hint
          omega
        rw [gauss_seidel_frame u f h hb]
        simp only [show (1 : ℕ) - 1 = 0 from rfl]
        rw [show gsCols f n h i (1 - 1) (gsRows f n h (i - 1) u) = gsRows f n h (i - 1) u
          from rfl]
        rw [gsRows_of_ne f n h _ _ (fun i' j' h1 h2 h3 h4 => by
          intro e
          have := key_inj (n := n) (by omega : j' < n) (by omega : 0 < n) e.symm
          omega)]
    have hR4 : gsCols f n h i (j - 1) (gsRows f n h (i - 1) u) (j + (i - 1) * n)
        = gauss_seidel u f n h (j + (i - 1) * n) := by
      have hcols : gsCols f n h i (j - 1) (gsRows f n h (i - 1) u) (j + (i - 1) * n)
          = gsRows f n h (i - 1) u (j + (i - 1) * n) := by
        rw [gsCols_of_ne f n h i _ _ (fun j' h1 h2 => by
          intro e
          have := key_inj (n := n) (by omega : j' < n) hjn e.symm
          omega)]
      rw [hcols]
      by_cases hi2' : 2 ≤ i
      · -- north neighbour is an interior point of an earlier row: its final
        -- value is fixed once row i-1 is done
        unfold gauss_seidel
        have e1 : n - 2 = (i - 1) + (n - 2 - (i - 1)) := by omega
        rw [e1, gsRows_stable f n h _ (i - 1) u (fun i' j' h1 h2 h3 h4 => by
          intro e
          have := key_inj (n := n) (by omega : j' < n) hjn e.symm
          omega)]
      · -- i = 1: the north neighbour is the row-0 boundary, untouched on
        -- both sides
        have hi1' : i = 1 := by omega
        subst hi1'
        have hb : ¬ isInteriorIdx n (j + (1 - 1) * n) := by
          intro hint
          unfold isInteriorIdx at hint
          simp only [show (1 : ℕ) - 1 = 0 from rfl, Nat.zero_mul, Nat.add_zero] at hint
          have h1 : j % n = j := Nat.mod_eq_of_lt hjn
          have h2 : j / n = 0 := Nat.div_eq_of_lt hjn
          omega
        rw [gauss_seidel_frame u f h hb]
        simp only [show (1 : ℕ) - 1 = 0 from rfl]
        rw [show gsRows f n h 0 u = u from rfl]
    rw [hR1, hR2, hR3, hR4]
  · intro k hk
    exact gauss_seidel_frame u f h hk

/-- Witness for C6 at a concrete input. -/
theorem C6_gauss_seidel_sweep_w :
    gauss_seidel zeroF zeroF 3 1 (1 + 1 * 3) =
      -(1/4) * (1 * 1 * zeroF (1 + 1 * 3)
        - zeroF (1 + 1 + 1 * 3) - gauss_seidel zeroF zeroF 3 1 (1 - 1 + 1 * 3)
        - zeroF (1 + (1 + 1) * 3) - gauss_seidel zeroF zeroF 3 1 (1 + (1 - 1) * 3)) ∧
    (∀ k, ¬ isInteriorIdx 3 k → gauss_seidel zeroF zeroF 3 1 k = zeroF k) :=
  C6_gauss_seidel_sweep zeroF zeroF 3 1 1 1 (by norm_num) (by norm_num)
    (by norm_num) (by norm_num)

/-- C2: at level 1 (n = 3) the V-cycle only runs `base_case`: it writes
`u[1 + 3*1] = -0.5 * f[1 + 3*1] * h * h` (the reference constant c = -0.5),
leaves every other entry of `u` and all of `r`, `v`, `w` unchanged, makes no
recursive call, and its result does not depend on the smoother or on the
grid-transfer kernels at all (no smoother, residual, or grid-transfer call is
made). -/
theorem C2_base_case_only (G G' : GridOps) (u f r v w : ℕ → ℚ) (h : ℚ) :
    (multigrid_v_cycle G 1 u f r v w h).u (1 + 3 * 1) =
      -(1/2) * f (1 + 3 * 1) * h * h ∧
    (∀ k, k ≠ 1 + 3 * 1 → (multigrid_v_cycle G 1 u f r v w h).u k = u k) ∧
    (multigrid_v_cycle G 1 u f r v w h).s = ⟨r, v, w⟩ ∧
    multigrid_v_cycle G 1 u f r v w h = multigrid_v_cycle G' 1 u f r v w h ∧
    vcycleEntries G 1 u f r v w h = [] := by
  refine ⟨?_, ?_, rfl, rfl, rfl⟩
  · show base_case u f h (1 + 3 * 1) = -(1/2) * f (1 + 3 * 1) * h * h
    simp [base_case]
  · intro k hk
    show base_case u f h k = u k
    simp [base_case, hk]

/-- Witness for C2 at a concrete input. -/
theorem C2_base_case_only_w :
    (multigrid_v_cycle trivOps 1 zeroF zeroF zeroF zeroF zeroF 1).u (1 + 3 * 1) =
      -(1/2) * zeroF (1 + 3 * 1) * 1 * 1 ∧
    (multigrid_v_cycle trivOps 1 zeroF zeroF zeroF zeroF zeroF 1).u 0 = zeroF 0 :=
  ⟨(C2_base_case_only trivOps trivOps zeroF zeroF zeroF zeroF zeroF 1).1,
   (C2_base_case_only trivOps trivOps zeroF zeroF zeroF zeroF zeroF 1).2.1 0
     (by decide)⟩

/-- C1: for `l ≥ 2` one call of `multigrid_v_cycle` consists exactly of, in
this order: one smoother application to `(u, f, 2^l+1, h)`; `poisson_residual`
into the scratch `r`; restriction of `r` into the coarse field at offset
`(2^(l-1)+1)^2` of arena `w` with weights `(existing, incoming) = (0, 1)`;
the recursive call at level `l-1` on the correction field carved at offset
`(2^(l-1)+1)^2` of arena `v` with doubled spacing `2*h`; prolongation of that
correction onto `u` with both weights `1`; and one final smoother application
to `(u, f, 2^l+1, h)`.  Each step consumes exactly the previous steps'
results. -/
theorem C1_vcycle_step_order (G : GridOps) (l : ℕ) (u f r v w : ℕ → ℚ)
    (h : ℚ) (hl : 2 ≤ l) :
    ∃ u1 r1 w1 s2 u2,
      u1 = G.Sm u f (2 ^ l + 1) h ∧
      r1 = poisson_residual r u1 f (2 ^ l + 1) h ∧
      w1 = applyAt w ((2 ^ (l - 1) + 1) * (2 ^ (l - 1) + 1))
        (grid_restrict G.Rker (view w ((2 ^ (l - 1) + 1) * (2 ^ (l - 1) + 1)))
          (2 ^ (l - 1) + 1) (2 ^ (l - 1) + 1) r1 (2 ^ l + 1) (2 ^ l + 1) 0 1) ∧
      s2 = vcycleInner G (l - 1) ((2 ^ (l - 1) + 1) * (2 ^ (l - 1) + 1))
        ⟨r1, v, w1⟩ (2 * h) ∧
      u2 = grid_prolongate G.Pker u1 (2 ^ l + 1) (2 ^ l + 1)
        (view s2.v ((2 ^ (l - 1) + 1) * (2 ^ (l - 1) + 1)))
        (2 ^ (l - 1) + 1) (2 ^ (l - 1) + 1) 1 1 ∧
      multigrid_v_cycle G l u f r v w h = ⟨G.Sm u2 f (2 ^ l + 1) h, s2⟩ := by
  obtain ⟨l', rfl⟩ : ∃ l', l = l' + 2 := ⟨l - 2, by omega⟩
  exact ⟨_, _, _, _, _, rfl, rfl, rfl, rfl, rfl, rfl⟩

/-- Witness for C1 at a concrete input (level 2, trivial operators). -/
theorem C1_vcycle_step_order_w :
    ∃ u1 r1 w1 s2 u2,
      u1 = trivOps.Sm zeroF zeroF (2 ^ 2 + 1) 1 ∧
      r1 = poisson_residual zeroF u1 zeroF (2 ^ 2 + 1) 1 ∧
      w1 = applyAt zeroF ((2 ^ (2 - 1) + 1) * (2 ^ (2 - 1) + 1))
        (grid_restrict trivOps.Rker
          (view zeroF ((2 ^ (2 - 1) + 1) * (2 ^ (2 - 1) + 1)))
          (2 ^ (2 - 1) + 1) (2 ^ (2 - 1) + 1) r1 (2 ^ 2 + 1) (2 ^ 2 + 1) 0 1) ∧
      s2 = vcycleInner trivOps (2 - 1) ((2 ^ (2 - 1) + 1) * (2 ^ (2 - 1) + 1))
        ⟨r1, zeroF, w1⟩ (2 * 1) ∧
      u2 = grid_prolongate trivOps.Pker u1 (2 ^ 2 + 1) (2 ^ 2 + 1)
        (view s2.v ((2 ^ (2 - 1) + 1) * (2 ^ (2 - 1) + 1)))
        (2 ^ (2 - 1) + 1) (2 ^ (2 - 1) + 1) 1 1 ∧
      multigrid_v_cycle trivOps 2 zeroF zeroF zeroF zeroF zeroF 1 =
        ⟨trivOps.Sm u2 zeroF (2 ^ 2 + 1) 1, s2⟩ :=
  C1_vcycle_step_order trivOps 2 zeroF zeroF zeroF zeroF zeroF 1 (by norm_num)

/-! ### The recursion trace -/

lemma mem_descList : ∀ m j, j ∈ descList m ↔ 1 ≤ j ∧ j ≤ m := by
  intro m
  induction m with
  | zero => intro j; simp [descList]; omega
  | succ m ih =>
      intro j
      simp only [descList, List.mem_cons, ih]
      omega

lemma descList_length : ∀ m, (descList m).length = m := by
  intro m
  induction m with
  | zero => rfl
  | succ m ih => simp [descList, ih]

lemma descList_nodup : ∀ m, (descList m).Nodup := by
  intro m
  induction m with
  | zero => exact List.nodup_nil
  | succ m ih =>
      refine List.nodup_cons.mpr ⟨?_, ih⟩
      rw [mem_descList]
      omega

lemma descList_count_one : ∀ m j, 1 ≤ j → j ≤ m → (descList m).count j = 1 := by
  intro m
  induction m with
  | zero => intro j h1 h2; omega
  | succ m ih =>
      intro j h1 h2
      rw [descList, List.count_cons]
      by_cases hj : j = m + 1
      · subst hj
        rw [List.count_eq_zero_of_not_mem (by rw [mem_descList]; omega)]
        simp
      · rw [ih j h1 (by omega)]
        have hj' : ¬ m + 1 = j := by omega
        simp [hj, hj']

lemma vcycleInnerEntries_levels (G : GridOps) :
    ∀ l (off : ℕ) (s : MGState) (h : ℚ),
      (vcycleInnerEntries G l off s h).map CallEntry.lvl = descList (l - 1) := by
  intro l
  induction l with
  | zero => intro off s h; rfl
  | succ l ih =>
      intro off s h
      cases l with
      | zero => rfl
      | succ l' =>
          show (vcycleInnerEntries G (l' + 2) off s h).map CallEntry.lvl =
            descList (l' + 1)
          rw [vcycleInnerEntries]
          simp only [List.map_cons]
          rw [ih]
          rfl

lemma vcycleEntries_levels (G : GridOps) (l : ℕ) (u f r v w : ℕ → ℚ) (h : ℚ) :
    (vcycleEntries G l u f r v w h).map CallEntry.lvl = descList (l - 1) := by
  match l with
  | 0 => rfl
  | 1 => rfl
  | l' + 2 =>
      show (vcycleEntries G (l' + 2) u f r v w h).map CallEntry.lvl =
        descList (l' + 1)
      rw [vcycleEntries]
      simp only [List.map_cons]
      rw [vcycleInnerEntries_levels]
      rfl

/-- C9: a V-cycle at level `l ≥ 1` terminates after descending a strict
linear chain: the trace of recursive calls visits levels `l-1, l-2, ..., 1`
in that order, so one V-cycle makes exactly `l-1` recursive calls and each
level is visited exactly once on the way down (and, the recursion being a
chain, once on the way up).  Termination itself is intrinsic: `vcycleInner`
and `multigrid_v_cycle` are total functions defined by structural recursion
on `l`. -/
theorem C9_linear_chain_termination (G : GridOps) (l : ℕ) (u f r v w : ℕ → ℚ)
    (h : ℚ) (hl : 1 ≤ l) :
    (vcycleEntries G l u f r v w h).map CallEntry.lvl = descList (l - 1) ∧
    (vcycleEntries G l u f r v w h).length = l - 1 ∧
    (∀ j, 1 ≤ j → j ≤ l - 1 →
      ((vcycleEntries G l u f r v w h).map CallEntry.lvl).count j = 1) ∧
    ((vcycleEntries G l u f r v w h).map CallEntry.lvl).Nodup := by
  have hlev := vcycleEntries_levels G l u f r v w h
  refine ⟨hlev, ?_, ?_, ?_⟩
  · have := congrArg List.length hlev
    rw [List.length_map, descList_length] at this
    exact this
  · intro j h1 h2
    rw [hlev]
    exact descList_count_one _ j h1 h2
  · rw [hlev]
    exact descList_nodup _

/-- Witness for C9 at a concrete input (level 3). -/
theorem C9_linear_chain_termination_w :
    (vcycleEntries trivOps 3 zeroF zeroF zeroF zeroF zeroF 1).map CallEntry.lvl
      = descList (3 - 1) ∧
    (vcycleEntries trivOps 3 zeroF zeroF zeroF zeroF zeroF 1).length = 3 - 1 :=
  ⟨(C9_linear_chain_termination trivOps 3 zeroF zeroF zeroF zeroF zeroF 1
      (by norm_num)).1,
   (C9_linear_chain_termination trivOps 3 zeroF zeroF zeroF zeroF zeroF 1
      (by norm_num)).2.1⟩

/-- C10: `Poisson::error()` overwrites the residual field `r` with `u` minus
the manufactured exact solution on the `n*n` grid (leaving `u`, `f`, and the
out-of-grid part of `r` unchanged), and a `norm()` call made after `error()`
(before any further `residual()` call) returns exactly the value `error()`
returned: the cell-area-weighted L1 norm of the solution error, not of the
residual. -/
theorem C10_error_clobbers_r (sn : ℚ → ℚ) (pq : ℚ) (p : PoissonState) (k : ℕ)
    (hk : k < p.n * p.n) :
    (Poisson_error sn pq p).2.u = p.u ∧
    (Poisson_error sn pq p).2.f = p.f ∧
    (Poisson_error sn pq p).2.r k =
      p.u k - exact_solution sn pq (fun _ => 0) p.n p.h p.modes k ∧
    (∀ m, p.n * p.n ≤ m → (Poisson_error sn pq p).2.r m = p.r m) ∧
    Poisson_norm (Poisson_error sn pq p).2 = (Poisson_error sn pq p).1 ∧
    (Poisson_error sn pq p).1 =
      grid_l1norm
        (grid_subtract p.r p.u
          (exact_solution sn pq (fun _ => 0) p.n p.h p.modes) p.n p.n)
        p.n p.n p.h p.h := by
  refine ⟨rfl, rfl, ?_, ?_, rfl, rfl⟩
  · show grid_subtract p.r p.u _ p.n p.n k = _
    simp [grid_subtract, hk]
  · intro m hm
    show grid_subtract p.r p.u _ p.n p.n m = p.r m
    simp [grid_subtract, Nat.not_lt.mpr hm]

/-- Witness for C10 at a concrete input. -/
theorem C10_error_clobbers_r_w :
    (Poisson_error id 0 ⟨3, 1, 1, zeroF, zeroF, zeroF⟩).2.u = zeroF ∧
    (Poisson_error id 0 ⟨3, 1, 1, zeroF, zeroF, zeroF⟩).2.r 0 =
      zeroF 0 - exact_solution id 0 (fun _ => 0) 3 1 1 0 ∧
    Poisson_norm (Poisson_error id 0 ⟨3, 1, 1, zeroF, zeroF, zeroF⟩).2 =
      (Poisson_error id 0 ⟨3, 1, 1, zeroF, zeroF, zeroF⟩).1 :=
  ⟨(C10_error_clobbers_r id 0 ⟨3, 1, 1, zeroF, zeroF, zeroF⟩ 0 (by norm_num)).1,
   (C10_error_clobbers_r id 0 ⟨3, 1, 1, zeroF, zeroF, zeroF⟩ 0 (by norm_num)).2.2.1,
   (C10_error_clobbers_r id 0 ⟨3, 1, 1, zeroF, zeroF, zeroF⟩ 0 (by norm_num)).2.2.2.2.1⟩

/-! ### Red-black pass: loop = fold over the interior point list -/

lemma rbCols_eq_foldl (p : ℕ) (f : ℕ → ℚ) (n : ℕ) (h : ℚ) (i : ℕ) :
    ∀ m (u : ℕ → ℚ),
      rbCols p f n h i m u =
        ((List.range m).map fun b => (i, b + 1)).foldl
          (fun a (q : ℕ × ℕ) => rbUpdate p f n h q.1 q.2 a) u := by
  intro m
  induction m with
  | zero => intro u; rfl
  | succ m ih =>
      intro u
      rw [rbCols, ih, List.range_succ, List.map_append, List.foldl_append]
      rfl

lemma rbRows_eq_foldl (p : ℕ) (f : ℕ → ℚ) (n : ℕ) (h : ℚ) :
    ∀ m (u : ℕ → ℚ),
      rbRows p f n h m u =
        ((List.range m).flatMap fun a =>
            (List.range (n - 2)).map fun b => (a + 1, b + 1)).foldl
          (fun a (q : ℕ × ℕ) => rbUpdate p f n h q.1 q.2 a) u := by
  intro m
  induction m with
  | zero => intro u; rfl
  | succ m ih =>
      intro u
      rw [rbRows, rbCols_eq_foldl, ih, List.range_succ, List.flatMap_append,
        List.foldl_append]
      simp

lemma foldl_rbUpdate_filter (p : ℕ) (f : ℕ → ℚ) (n : ℕ) (h : ℚ) :
    ∀ (ps : List (ℕ × ℕ)) (u : ℕ → ℚ),
      ps.foldl (fun a (q : ℕ × ℕ) => rbUpdate p f n h q.1 q.2 a) u =
        (ps.filter fun q => (q.1 + q.2) % 2 == p).foldl
          (fun a (q : ℕ × ℕ) => gsUpdate f n h q.1 q.2 a) u := by
  intro ps
  induction ps with
  | nil => intro u; rfl
  | cons q rest ih =>
      intro u
      rw [List.foldl_cons, List.filter_cons]
      by_cases hc : (q.1 + q.2) % 2 = p
      · rw [if_pos (by simpa using hc), List.foldl_cons, ih]
        congr 1
        unfold rbUpdate
        rw [if_pos hc]
      · rw [if_neg (by simpa using hc), ih]
        congr 1
        unfold rbUpdate
        rw [if_neg hc]

lemma mem_interiorPairs {n : ℕ} {q : ℕ × ℕ} :
    q ∈ interiorPairs n ↔ 1 ≤ q.1 ∧ q.1 ≤ n - 2 ∧ 1 ≤ q.2 ∧ q.2 ≤ n - 2 := by
  obtain ⟨a, b⟩ := q
  unfold interiorPairs
  simp only [List.mem_flatMap, List.mem_map, List.mem_range, Prod.mk.injEq]
  constructor
  · rintro ⟨x, hx, y, hy, hxy1, hxy2⟩
    omega
  · rintro ⟨h1, h2, h3, h4⟩
    exact ⟨a - 1, by omega, b - 1, by omega, by omega, by omega⟩

lemma interiorPairs_nodup (n : ℕ) : (interiorPairs n).Nodup := by
  unfold interiorPairs
  rw [List.nodup_flatMap]
  constructor
  · intro x _
    exact List.Nodup.map (fun b1 b2 e => by simpa using e) (List.nodup_range _)
  · refine (List.pairwise_lt_range _).imp ?_
    intro a b hab t ht1 ht2
    simp only [List.mem_map, List.mem_range] at ht1 ht2
    obtain ⟨y1, _, e1⟩ := ht1
    obtain ⟨y2, _, e2⟩ := ht2
    have : a + 1 = t.1 := by rw [← e1]
    have : b + 1 = t.1 := by rw [← e2]
    omega

lemma rbPairs_keys_nodup (n p : ℕ) : ((rbPairs n p).map (keyOf n)).Nodup := by
  apply List.Nodup.map_on
  · intro x hx y hy e
    have hx' := mem_interiorPairs.mp (List.mem_filter.mp hx).1
    have hy' := mem_interiorPairs.mp (List.mem_filter.mp hy).1
    have hxy := key_inj (n := n) (by omega : x.2 < n) (by omega : y.2 < n) e
    obtain ⟨a, b⟩ := x
    obtain ⟨c, d⟩ := y
    simp only at hxy
    simp [Prod.mk.injEq]
    omega
  · exact List.Nodup.filter _ (interiorPairs_nodup n)

lemma mem_rbPairs_keys {n p k : ℕ} :
    k ∈ (rbPairs n p).map (keyOf n) ↔
      isInteriorIdx n k ∧ (k / n + k % n) % 2 = p := by
  constructor
  · intro hk
    obtain ⟨q, hq, rfl⟩ := List.mem_map.mp hk
    obtain ⟨hqi, hqp⟩ := List.mem_filter.mp hq
    obtain ⟨h1, h2, h3, h4⟩ := mem_interiorPairs.mp hqi
    have hqp' : (q.1 + q.2) % 2 = p := by simpa using hqp
    refine ⟨interior_key h1 h2 h3 h4, ?_⟩
    show ((q.2 + q.1 * n) / n + (q.2 + q.1 * n) % n) % 2 = p
    rw [key_div (by omega : q.2 < n), key_mod (by omega : q.2 < n)]
    omega
  · rintro ⟨hint, hpar⟩
    obtain ⟨hlt, h1, h2, h3, h4⟩ := hint
    refine List.mem_map.mpr ⟨(k / n, k % n), ?_, ?_⟩
    · refine List.mem_filter.mpr ⟨mem_interiorPairs.mpr ⟨h1, h2, h3, h4⟩, ?_⟩
      simpa using hpar
    · exact Nat.mod_add_div' k n

/-! ### A fold of independent same-color updates equals the simultaneous pass -/

lemma rbSimVal_congr (f : ℕ → ℚ) (n : ℕ) (h : ℚ) {u u' : ℕ → ℚ} {k : ℕ}
    (h1 : u' (k + 1) = u (k + 1)) (h2 : u' (k - 1) = u (k - 1))
    (h3 : u' (k + n) = u (k + n)) (h4 : u' (k - n) = u (k - n)) :
    rbSimVal f n h u' k = rbSimVal f n h u k := by
  unfold rbSimVal
  rw [h1, h2, h3, h4]

lemma gsUpdate_value_eq_simVal (f : ℕ → ℚ) (n : ℕ) (h : ℚ) (q : ℕ × ℕ)
    (u : ℕ → ℚ) (h1 : 1 ≤ q.1) (h2 : q.1 ≤ n - 2) (h3 : 1 ≤ q.2)
    (h4 : q.2 ≤ n - 2) :
    gsUpdate f n h q.1 q.2 u (keyOf n q) = rbSimVal f n h u (keyOf n q) := by
  obtain ⟨a, b⟩ := q
  simp only at h1 h2 h3 h4
  show gsUpdate f n h a b u (b + a * n) = rbSimVal f n h u (b + a * n)
  rw [gsUpdate_self]
  unfold rbSimVal
  have e1 : b + 1 + a * n = b + a * n + 1 := by omega
  have e2 : b - 1 + a * n = b + a * n - 1 := by omega
  have e3 : b + (a + 1) * n = b + a * n + n := by
    have : (a + 1) * n = a * n + n := by ring
    omega
  have e4 : b + (a - 1) * n = b + a * n - n := by
    have h5 : (a - 1) * n = a * n - 1 * n := Nat.sub_mul a 1 n
    have h6 : n ≤ a * n := Nat.le_mul_of_pos_left n (by omega)
    omega
  rw [e1, e2, e3, e4]

lemma foldl_gsUpdate_eq_simOn (f : ℕ → ℚ) (n : ℕ) (h : ℚ) (p : ℕ) :
    ∀ (ps : List (ℕ × ℕ)) (u : ℕ → ℚ),
      (∀ q ∈ ps,
        1 ≤ q.1 ∧ q.1 ≤ n - 2 ∧ 1 ≤ q.2 ∧ q.2 ≤ n - 2 ∧ (q.1 + q.2) % 2 = p) →
      (ps.map (keyOf n)).Nodup →
      ∀ k, ps.foldl (fun a (q : ℕ × ℕ) => gsUpdate f n h q.1 q.2 a) u k =
        if k ∈ ps.map (keyOf n) then rbSimVal f n h u k else u k := by
  intro ps
  induction ps with
  | nil => intro u _ _ k; simp
  | cons q rest ih =>
      intro u hmem hnd k
      obtain ⟨hq1, hq2, hq3, hq4, hqp⟩ := hmem q (List.mem_cons_self q rest)
      have hn3 : 3 ≤ n := by omega
      have hrest := fun q' hq' => hmem q' (List.mem_cons_of_mem _ hq')
      rw [List.map_cons, List.nodup_cons] at hnd
      obtain ⟨hknotin, hnd'⟩ := hnd
      simp only [List.foldl_cons]
      rw [ih (gsUpdate f n h q.1 q.2 u) hrest hnd' k]
      simp only [List.map_cons, List.mem_cons]
      by_cases hk1 : k ∈ rest.map (keyOf n)
      · rw [if_pos hk1, if_pos (Or.inr hk1)]
        obtain ⟨q2, hq2mem, rfl⟩ := List.mem_map.mp hk1
        obtain ⟨g1, g2, g3, g4, gp⟩ := hrest q2 hq2mem
        apply rbSimVal_congr
        · apply gsUpdate_of_ne
          intro e
          have e' : (q2.2 + 1) + q2.1 * n = q.2 + q.1 * n := by
            show _ = q.2 + q.1 * n
            have : keyOf n q2 = q2.2 + q2.1 * n := rfl
            omega
          have := key_inj (n := n) (by omega : q2.2 + 1 < n)
            (by omega : q.2 < n) e'
          omega
        · apply gsUpdate_of_ne
          intro e
          have e' : (q2.2 - 1) + q2.1 * n = q.2 + q.1 * n := by
            have : keyOf n q2 = q2.2 + q2.1 * n := rfl
            omega
          have := key_inj (n := n) (by omega : q2.2 - 1 < n)
            (by omega : q.2 < n) e'
          omega
        · apply gsUpdate_of_ne
          intro e
          have hx : (q2.1 + 1) * n = q2.1 * n + n := by ring
          have e' : q2.2 + (q2.1 + 1) * n = q.2 + q.1 * n := by
            have : keyOf n q2 = q2.2 + q2.1 * n := rfl
            omega
          have := key_inj (n := n) (by omega : q2.2 < n)
            (by omega : q.2 < n) e'
          omega
        · apply gsUpdate_of_ne
          intro e
          have hge : n ≤ q2.1 * n := Nat.le_mul_of_pos_left n (by omega)
          have hx : (q2.1 - 1) * n = q2.1 * n - 1 * n := Nat.sub_mul q2.1 1 n
          have e' : q2.2 + (q2.1 - 1) * n = q.2 + q.1 * n := by
            have : keyOf n q2 = q2.2 + q2.1 * n := rfl
            omega
          have := key_inj (n := n) (by omega : q2.2 < n)
            (by omega : q.2 < n) e'
          omega
      · rw [if_neg hk1]
        by_cases hk2 : k = keyOf n q
        · rw [if_pos (Or.inl hk2), hk2]
          exact gsUpdate_value_eq_simVal f n h q u hq1 hq2 hq3 hq4
        · have hnotin : ¬ (k = keyOf n q ∨ k ∈ rest.map (keyOf n)) := by
            tauto
          rw [if_neg hnotin]
          exact gsUpdate_of_ne f n h q.1 q.2 u hk2

lemma foldl_perm_rbPairs (f : ℕ → ℚ) (n : ℕ) (h : ℚ) (p : ℕ)
    (ps : List (ℕ × ℕ)) (u : ℕ → ℚ) (hperm : ps.Perm (rbPairs n p)) :
    ps.foldl (fun a (q : ℕ × ℕ) => gsUpdate f n h q.1 q.2 a) u =
      rbSimPass p f n h u := by
  have hmem : ∀ q ∈ ps,
      1 ≤ q.1 ∧ q.1 ≤ n - 2 ∧ 1 ≤ q.2 ∧ q.2 ≤ n - 2 ∧ (q.1 + q.2) % 2 = p := by
    intro q hq
    have hq' := hperm.mem_iff.mp hq
    obtain ⟨hqi, hqp⟩ := List.mem_filter.mp hq'
    obtain ⟨h1, h2, h3, h4⟩ := mem_interiorPairs.mp hqi
    exact ⟨h1, h2, h3, h4, by simpa using hqp⟩
  have hnd : (ps.map (keyOf n)).Nodup :=
    ((hperm.map (keyOf n)).nodup_iff).mpr (rbPairs_keys_nodup n p)
  funext k
  rw [foldl_gsUpdate_eq_simOn f n h p ps u hmem hnd k]
  have hmemiff : k ∈ ps.map (keyOf n) ↔
      isInteriorIdx n k ∧ (k / n + k % n) % 2 = p :=
    ((hperm.map (keyOf n)).mem_iff).trans mem_rbPairs_keys
  unfold rbSimPass
  by_cases hk : isInteriorIdx n k ∧ (k / n + k % n) % 2 = p
  · rw [if_pos (hmemiff.mpr hk), if_pos hk]
  · rw [if_neg (fun hc => hk (hmemiff.mp hc)), if_neg hk]

lemma rb_pass_eq_sim (p : ℕ) (f : ℕ → ℚ) (n : ℕ) (h : ℚ) (u : ℕ → ℚ) :
    rbRows p f n h (n - 2) u = rbSimPass p f n h u := by
  rw [rbRows_eq_foldl]
  rw [show ((List.range (n - 2)).flatMap fun a =>
      (List.range (n - 2)).map fun b => (a + 1, b + 1)) = interiorPairs n
    from rfl]
  rw [foldl_rbUpdate_filter]
  exact foldl_perm_rbPairs f n h p (rbPairs n p) u (List.Perm.refl _)

/-- C5: each in-place pass of `gauss_seidel_red_black` touches only points of
its own color `(i+j) % 2` and reads only opposite-color neighbours, so it
computes exactly the simultaneous (Jacobi-style) one-color update of the
state at the start of the pass; consequently folding the stencil updates over
the color-`p` points in ANY order (any permutation of the row-major list
`rbPairs n p`) yields that same result, while the black (p = 1) pass operates
on the red pass's output. -/
theorem C5_red_black_pass_structure (u f : ℕ → ℚ) (n : ℕ) (h : ℚ) :
    gauss_seidel_red_black u f n h =
      rbSimPass 1 f n h (rbSimPass 0 f n h u) ∧
    (∀ ps : List (ℕ × ℕ), ps.Perm (rbPairs n 0) →
      ps.foldl (fun a (q : ℕ × ℕ) => gsUpdate f n h q.1 q.2 a) u =
        rbSimPass 0 f n h u) ∧
    (∀ ps : List (ℕ × ℕ), ps.Perm (rbPairs n 1) →
      ps.foldl (fun a (q : ℕ × ℕ) => gsUpdate f n h q.1 q.2 a)
          (rbSimPass 0 f n h u) =
        rbSimPass 1 f n h (rbSimPass 0 f n h u)) := by
  refine ⟨?_, ?_, ?_⟩
  · unfold gauss_seidel_red_black
    rw [rb_pass_eq_sim 0, rb_pass_eq_sim 1]
  · intro ps hps
    exact foldl_perm_rbPairs f n h 0 ps u hps
  · intro ps hps
    exact foldl_perm_rbPairs f n h 1 ps _ hps

/-- Witness for C5 at a concrete input. -/
theorem C5_red_black_pass_structure_w :
    gauss_seidel_red_black zeroF zeroF 3 1 =
      rbSimPass 1 zeroF 3 1 (rbSimPass 0 zeroF 3 1 zeroF) ∧
    (rbPairs 3 0).foldl (fun a (q : ℕ × ℕ) => gsUpdate zeroF 3 1 q.1 q.2 a)
        zeroF =
      rbSimPass 0 zeroF 3 1 zeroF :=
  ⟨(C5_red_black_pass_structure zeroF zeroF 3 1).1,
   (C5_red_black_pass_structure zeroF zeroF 3 1).2.1 (rbPairs 3 0)
     (List.Perm.refl _)⟩

/-! ### Maximum norm facts -/

lemma foldl_max_le (l : List ℚ) :
    ∀ (a b : ℚ), a ≤ b → (∀ x ∈ l, x ≤ b) → l.foldl max a ≤ b := by
  induction l with
  | nil => intro a b hab _; exact hab
  | cons x t ih =>
      intro a b hab hx
      exact ih (max a x) b (max_le hab (hx x (List.mem_cons_self x t)))
        fun y hy => hx y (List.mem_cons_of_mem _ hy)

lemma le_foldl_max_init (l : List ℚ) : ∀ a : ℚ, a ≤ l.foldl max a := by
  induction l with
  | nil => intro a; exact le_rfl
  | cons x t ih =>
      intro a
      exact le_trans (le_max_left a x) (ih (max a x))

lemma mem_le_foldl_max (l : List ℚ) :
    ∀ (a x : ℚ), x ∈ l → x ≤ l.foldl max a := by
  induction l with
  | nil => intro a x hx; cases hx
  | cons y t ih =>
      intro a x hx
      rcases List.mem_cons.mp hx with hx | hx
      · subst hx
        exact le_trans (le_max_right a x) (le_foldl_max_init t (max a x))
      · exact ih (max a y) x hx

lemma maxnorm_nonneg (n : ℕ) (u : ℕ → ℚ) : 0 ≤ maxnorm n u :=
  le_foldl_max_init _ 0

lemma le_maxnorm (n : ℕ) (u : ℕ → ℚ) {k : ℕ} (hk : k < n * n) :
    |u k| ≤ maxnorm n u :=
  mem_le_foldl_max _ 0 _ (List.mem_map.mpr ⟨k, List.mem_range.mpr hk, rfl⟩)

lemma maxnorm_le {n : ℕ} {u : ℕ → ℚ} {M : ℚ} (hM : 0 ≤ M)
    (hb : ∀ k, k < n * n → |u k| ≤ M) : maxnorm n u ≤ M := by
  apply foldl_max_le _ 0 M hM
  intro x hx
  obtain ⟨k, hk, rfl⟩ := List.mem_map.mp hx
  exact hb k (List.mem_range.mp hk)

lemma key_lt_sq {n i j : ℕ} (hi : i ≤ n - 1) (hj : j ≤ n - 1) (hn : 1 ≤ n) :
    j + i * n < n * n := by
  have h1 : i * n ≤ (n - 1) * n := Nat.mul_le_mul_right n hi
  have h2 : (n - 1) * n = n * n - 1 * n := Nat.sub_mul n 1 n
  have h3 : n * 1 ≤ n * n := Nat.mul_le_mul_left n hn
  omega

/-! ### The smoother does not increase the maximum norm when f = 0 -/

lemma gsUpdate_bound {f : ℕ → ℚ} {n : ℕ} {h : ℚ} {i j : ℕ} {u : ℕ → ℚ} {M : ℚ}
    (hf : ∀ k, f k = 0) (hM : 0 ≤ M) (hu : ∀ k, k < n * n → |u k| ≤ M)
    (hi1 : 1 ≤ i) (hi2 : i ≤ n - 2) (hj1 : 1 ≤ j) (hj2 : j ≤ n - 2) :
    ∀ k, k < n * n → |gsUpdate f n h i j u k| ≤ M := by
  intro k hk
  unfold gsUpdate
  split
  · have hn : 3 ≤ n := by omega
    have hb1 : j + 1 + i * n < n * n := by
      have : j + 1 + i * n = (j + 1) + i * n := by ring
      rw [this]
      exact key_lt_sq (by omega) (by omega) (by omega)
    have hb2 : j - 1 + i * n < n * n :=
      key_lt_sq (n := n) (by omega) (by omega) (by omega)
    have hb3 : j + (i + 1) * n < n * n :=
      key_lt_sq (by omega) (by omega) (by omega)
    have hb4 : j + (i - 1) * n < n * n :=
      key_lt_sq (by omega) (by omega) (by omega)
    have ha := hu _ hb1
    have hb := hu _ hb2
    have hc := hu _ hb3
    have hd := hu _ hb4
    rw [hf (j + i * n)]
    have e : -(1/4 : ℚ) * (h * h * 0
        - u (j + 1 + i * n) - u (j - 1 + i * n)
        - u (j + (i + 1) * n) - u (j + (i - 1) * n)) =
        (1/4) * (u (j + 1 + i * n) + u (j - 1 + i * n)
          + u (j + (i + 1) * n) + u (j + (i - 1) * n)) := by
      ring
    rw [e]
    rw [abs_mul, abs_of_pos (by norm_num : (0:ℚ) < 1/4)]
    have habs : |u (j + 1 + i * n) + u (j - 1 + i * n)
        + u (j + (i + 1) * n) + u (j + (i - 1) * n)| ≤ 4 * M := by
      calc |u (j + 1 + i * n) + u (j - 1 + i * n)
          + u (j + (i + 1) * n) + u (j + (i - 1) * n)|
          ≤ |u (j + 1 + i * n) + u (j - 1 + i * n) + u (j + (i + 1) * n)|
            + |u (j + (i - 1) * n)| := abs_add _ _
        _ ≤ |u (j + 1 + i * n) + u (j - 1 + i * n)| + |u (j + (i + 1) * n)|
            + |u (j + (i - 1) * n)| := by
              have := abs_add (u (j + 1 + i * n) + u (j - 1 + i * n))
                (u (j + (i + 1) * n))
              linarith
        _ ≤ |u (j + 1 + i * n)| + |u (j - 1 + i * n)| + |u (j + (i + 1) * n)|
            + |u (j + (i - 1) * n)| := by
              have := abs_add (u (j + 1 + i * n)) (u (j - 1 + i * n))
              linarith
        _ ≤ 4 * M := by linarith
    linarith
  · exact hu k hk

lemma gsCols_bound {f : ℕ → ℚ} {n : ℕ} {h : ℚ} {i : ℕ} {M : ℚ}
    (hf : ∀ k, f k = 0) (hM : 0 ≤ M) (hi1 : 1 ≤ i) (hi2 : i ≤ n - 2) :
    ∀ m, m ≤ n - 2 → ∀ u : ℕ → ℚ, (∀ k, k < n * n → |u k| ≤ M) →
      ∀ k, k < n * n → |gsCols f n h i m u k| ≤ M := by
  intro m
  induction m with
  | zero => intro _ u hu; exact hu
  | succ m ih =>
      intro hm u hu
      exact gsUpdate_bound hf hM (ih (by omega) u hu) hi1 hi2 (by omega) hm

lemma gsRows_bound {f : ℕ → ℚ} {n : ℕ} {h : ℚ} {M : ℚ}
    (hf : ∀ k, f k = 0) (hM : 0 ≤ M) :
    ∀ m, m ≤ n - 2 → ∀ u : ℕ → ℚ, (∀ k, k < n * n → |u k| ≤ M) →
      ∀ k, k < n * n → |gsRows f n h m u k| ≤ M := by
  intro m
  induction m with
  | zero => intro _ u hu; exact hu
  | succ m ih =>
      intro hm u hu
      exact gsCols_bound hf hM (by omega) hm (n - 2) le_rfl _
        (ih (by omega) u hu)

lemma rbUpdate_bound {p : ℕ} {f : ℕ → ℚ} {n : ℕ} {h : ℚ} {i j : ℕ}
    {u : ℕ → ℚ} {M : ℚ}
    (hf : ∀ k, f k = 0) (hM : 0 ≤ M) (hu : ∀ k, k < n * n → |u k| ≤ M)
    (hi1 : 1 ≤ i) (hi2 : i ≤ n - 2) (hj1 : 1 ≤ j) (hj2 : j ≤ n - 2) :
    ∀ k, k < n * n → |rbUpdate p f n h i j u k| ≤ M := by
  intro k hk
  unfold rbUpdate
  split
  · exact gsUpdate_bound hf hM hu hi1 hi2 hj1 hj2 k hk
  · exact hu k hk

lemma rbCols_bound {p : ℕ} {f : ℕ → ℚ} {n : ℕ} {h : ℚ} {i : ℕ} {M : ℚ}
    (hf : ∀ k, f k = 0) (hM : 0 ≤ M) (hi1 : 1 ≤ i) (hi2 : i ≤ n - 2) :
    ∀ m, m ≤ n - 2 → ∀ u : ℕ → ℚ, (∀ k, k < n * n → |u k| ≤ M) →
      ∀ k, k < n * n → |rbCols p f n h i m u k| ≤ M := by
  intro m
  induction m with
  | zero => intro _ u hu; exact hu
  | succ m ih =>
      intro hm u hu
      exact rbUpdate_bound hf hM (ih (by omega) u hu) hi1 hi2 (by omega) hm

lemma rbRows_bound {p : ℕ} {f : ℕ → ℚ} {n : ℕ} {h : ℚ} {M : ℚ}
    (hf : ∀ k, f k = 0) (hM : 0 ≤ M) :
    ∀ m, m ≤ n - 2 → ∀ u : ℕ → ℚ, (∀ k, k < n * n → |u k| ≤ M) →
      ∀ k, k < n * n → |rbRows p f n h m u k| ≤ M := by
  intro m
  induction m with
  | zero => intro _ u hu; exact hu
  | succ m ih =>
      intro hm u hu
      exact rbCols_bound hf hM (by omega) hm (n - 2) le_rfl _
        (ih (by omega) u hu)

lemma maxnorm_gauss_seidel_le {u f : ℕ → ℚ} {n : ℕ} {h : ℚ}
    (hf : ∀ k, f k = 0) : maxnorm n (gauss_seidel u f n h) ≤ maxnorm n u :=
  maxnorm_le (maxnorm_nonneg n u)
    (gsRows_bound hf (maxnorm_nonneg n u) (n - 2) le_rfl u
      (fun k hk => le_maxnorm n u hk))

lemma maxnorm_red_black_le {u f : ℕ → ℚ} {n : ℕ} {h : ℚ}
    (hf : ∀ k, f k = 0) :
    maxnorm n (gauss_seidel_red_black u f n h) ≤ maxnorm n u := by
  apply maxnorm_le (maxnorm_nonneg n u)
  unfold gauss_seidel_red_black
  exact rbRows_bound hf (maxnorm_nonneg n u) (n - 2) le_rfl _
    (rbRows_bound hf (maxnorm_nonneg n u) (n - 2) le_rfl u
      (fun k hk => le_maxnorm n u hk))

/-- C8: with `f` identically zero and a zero boundary, one application of
either smoother variant does not increase the discrete maximum norm of `u`,
so under repeated application the distance of `u` from the zero field (in the
maximum norm) decreases monotonically: the norm sequence is non-increasing at
every step, for both `gauss_seidel` and `gauss_seidel_red_black`. -/
theorem C8_smoother_maxnorm_antitone (u f : ℕ → ℚ) (n : ℕ) (h : ℚ)
    (hn : 3 ≤ n) (hf : ∀ k, f k = 0)
    (hb : ∀ k, k < n * n →
      (k / n = 0 ∨ k / n = n - 1 ∨ k % n = 0 ∨ k % n = n - 1) → u k = 0) :
    (∀ m : ℕ, maxnorm n ((fun x => gauss_seidel x f n h)^[m + 1] u) ≤
      maxnorm n ((fun x => gauss_seidel x f n h)^[m] u)) ∧
    (∀ m : ℕ, maxnorm n ((fun x => gauss_seidel_red_black x f n h)^[m + 1] u) ≤
      maxnorm n ((fun x => gauss_seidel_red_black x f n h)^[m] u)) := by
  constructor
  · intro m
    rw [Function.iterate_succ_apply']
    exact maxnorm_gauss_seidel_le hf
  · intro m
    rw [Function.iterate_succ_apply']
    exact maxnorm_red_black_le hf

/-- Witness for C8 at a concrete input. -/
theorem C8_smoother_maxnorm_antitone_w :
    maxnorm 3 ((fun x => gauss_seidel x zeroF 3 1)^[1] zeroF) ≤
      maxnorm 3 ((fun x => gauss_seidel x zeroF 3 1)^[0] zeroF) :=
  (C8_smoother_maxnorm_antitone zeroF zeroF 3 1 (by norm_num)
    (fun _ => rfl) (fun _ _ _ => rfl)).1 0

/-! ### Arena region arithmetic -/

lemma applyAt_below {b g : ℕ → ℚ} {off k : ℕ} (hk : k < off) :
    applyAt b off g k = b k :=
  if_neg (by omega)

lemma applyAt_ge {b g : ℕ → ℚ} {off k : ℕ} (hk : off ≤ k) :
    applyAt b off g k = g (k - off) :=
  if_pos hk

lemma view_applyAt (b : ℕ → ℚ) (off : ℕ) (g : ℕ → ℚ) :
    view (applyAt b off g) off = g := by
  funext k
  simp [view, applyAt]

lemma vcyclePre_v (G : GridOps) (l off : ℕ) (s : MGState) (h : ℚ) :
    (vcyclePre G l off s h).v =
      applyAt s.v off (G.Sm (view s.v off) (view s.w off) (2 ^ l + 1) h) :=
  rfl

lemma nsq_double_le_succ (a : ℕ) : 2 * nsq a ≤ nsq (a + 1) := by
  have hx : 1 ≤ 2 ^ a := Nat.one_le_two_pow
  have hxx : 1 * 1 ≤ 2 ^ a * 2 ^ a := Nat.mul_le_mul hx hx
  unfold nsq
  have h2 : 2 ^ (a + 1) = 2 * 2 ^ a := by rw [pow_succ]; ring
  rw [h2]
  nlinarith [hx, hxx]

lemma nsq_mono {a b : ℕ} (hab : a ≤ b) : nsq a ≤ nsq b := by
  unfold nsq
  have := Nat.pow_le_pow_right (by norm_num : 1 ≤ 2) hab
  exact Nat.mul_le_mul (by omega) (by omega)

lemma nsq_double_le {a b : ℕ} (hab : a < b) : 2 * nsq a ≤ nsq b :=
  le_trans (nsq_double_le_succ a) (nsq_mono hab)

lemma multigrid_size_succ (l : ℕ) :
    multigrid_size (l + 1) =
      multigrid_size l + (2 ^ (l + 1) + 1) * (2 ^ (l + 1) + 1) := by
  unfold multigrid_size
  rw [List.range_succ, List.foldl_append]
  rfl

lemma multigrid_size_eq_sum (l : ℕ) :
    multigrid_size l = ∑ i ∈ Finset.range (l + 1), (2 ^ i + 1) ^ 2 := by
  induction l with
  | zero => decide
  | succ l ih =>
      rw [multigrid_size_succ, ih, Finset.sum_range_succ _ (l + 1), pow_two]

lemma nsq_le_multigrid_size (l : ℕ) : nsq l ≤ multigrid_size l := by
  cases l with
  | zero => decide
  | succ l =>
      rw [multigrid_size_succ]
      unfold nsq
      omega

/-! ### Zero correction fields at every recursive entry -/

lemma vcycleInnerEntries_off (G : GridOps) :
    ∀ l (off : ℕ) (s : MGState) (h : ℚ),
      ∀ e ∈ vcycleInnerEntries G l off s h,
        e.off = nsq e.lvl ∧ 1 ≤ e.lvl ∧ e.lvl ≤ l - 1 := by
  intro l
  induction l with
  | zero => intro off s h e he; cases he
  | succ l ih =>
      intro off s h e he
      cases l with
      | zero => cases he
      | succ l' =>
          rw [vcycleInnerEntries] at he
          rcases List.mem_cons.mp he with he | he
          · subst he
            exact ⟨rfl, by show 1 ≤ l' + 1; omega,
              by show l' + 1 ≤ l' + 1 + 1 - 1; omega⟩
          · obtain ⟨h1, h2, h3⟩ := ih _ _ _ e he
            exact ⟨h1, h2, by omega⟩

lemma vcycleEntries_off (G : GridOps) (l : ℕ) (u f r v w : ℕ → ℚ) (h : ℚ) :
    ∀ e ∈ vcycleEntries G l u f r v w h,
      e.off = nsq e.lvl ∧ 1 ≤ e.lvl ∧ e.lvl ≤ l - 1 := by
  match l with
  | 0 => intro e he; cases he
  | 1 => intro e he; cases he
  | l' + 2 =>
      intro e he
      rw [vcycleEntries] at he
      rcases List.mem_cons.mp he with he | he
      · subst he
        exact ⟨rfl, by show 1 ≤ l' + 1; omega,
          by show l' + 1 ≤ l' + 2 - 1; omega⟩
      · obtain ⟨h1, h2, h3⟩ := vcycleInnerEntries_off G _ _ _ _ e he
        exact ⟨h1, h2, by omega⟩

lemma vcycleInnerEntries_zero (G : GridOps) :
    ∀ l (off : ℕ) (s : MGState) (h : ℚ),
      (∀ k, k < 2 * nsq (l - 1) → s.v k = 0) → 2 * nsq (l - 1) ≤ off →
      ∀ e ∈ vcycleInnerEntries G l off s h,
        ∀ k, k < nsq e.lvl → e.st.v (e.off + k) = 0 := by
  intro l
  induction l with
  | zero => intro off s h _ _ e he; cases he
  | succ l ih =>
      intro off s h hz hoff e he
      cases l with
      | zero => cases he
      | succ l' =>
          rw [vcycleInnerEntries] at he
          have hz' : ∀ k, k < 2 * nsq (l' + 1) → s.v k = 0 := hz
          have hoff' : 2 * nsq (l' + 1) ≤ off := hoff
          have hstep : 2 * nsq l' ≤ nsq (l' + 1) := nsq_double_le_succ l'
          have hpre : (vcyclePre G (l' + 2) off s h).v =
              applyAt s.v off _ := vcyclePre_v G (l' + 2) off s h
          rcases List.mem_cons.mp he with he | he
          · subst he
            intro k hk
            have hk' : k < nsq (l' + 1) := hk
            show (vcyclePre G (l' + 2) off s h).v (nsq (l' + 1) + k) = 0
            rw [hpre, applyAt_below (by omega)]
            exact hz' _ (by omega)
          · have harg1 : ∀ k, k < 2 * nsq (l' + 1 - 1) →
                (vcyclePre G (l' + 2) off s h).v k = 0 := by
              intro k hk
              have hk' : k < 2 * nsq l' := hk
              rw [hpre, applyAt_below (by omega)]
              exact hz' _ (by omega)
            have harg2 : 2 * nsq (l' + 1 - 1) ≤
                (2 ^ (l' + 1) + 1) * (2 ^ (l' + 1) + 1) := by
              show 2 * nsq l' ≤ nsq (l' + 1)
              exact hstep
            exact ih ((2 ^ (l' + 1) + 1) * (2 ^ (l' + 1) + 1))
              (vcyclePre G (l' + 2) off s h) (2 * h) harg1 harg2 e he

/-- C3: within one V-cycle at level `l ≥ 2` with both arenas zero-filled by
the driver, the per-level regions carved from the arenas are exact and
disjoint: every recursive call at level `j` receives its correction field at
offset `(2^j+1)^2` of arena `v` (and its restricted residual at the same
offset of arena `w`); the callee levels are pairwise distinct (no region is
reused within the cycle); regions of distinct levels are disjoint (the lower
level's region `[off, off + (2^j+1)^2)` ends before the higher level's
begins); and every correction field is identically zero at the moment its
recursive solve begins. -/
theorem C3_arena_disjoint_zero (G : GridOps) (l : ℕ) (u f r v w : ℕ → ℚ)
    (h : ℚ) (hl : 2 ≤ l)
    (hv : ∀ k, k < multigrid_size l → v k = 0)
    (hw : ∀ k, k < multigrid_size l → w k = 0) :
    (∀ e ∈ vcycleEntries G l u f r v w h, e.off = nsq e.lvl) ∧
    ((vcycleEntries G l u f r v w h).map CallEntry.lvl).Nodup ∧
    (∀ e ∈ vcycleEntries G l u f r v w h,
      ∀ e' ∈ vcycleEntries G l u f r v w h,
        e.lvl < e'.lvl → e.off + nsq e.lvl ≤ e'.off) ∧
    (∀ e ∈ vcycleEntries G l u f r v w h,
      ∀ k, k < nsq e.lvl → e.st.v (e.off + k) = 0) := by
  refine ⟨fun e he => (vcycleEntries_off G l u f r v w h e he).1, ?_, ?_, ?_⟩
  · rw [vcycleEntries_levels]
    exact descList_nodup _
  · intro e he e' he' hlt
    have h1 := (vcycleEntries_off G l u f r v w h e he).1
    have h2 := (vcycleEntries_off G l u f r v w h e' he').1
    have h3 : 2 * nsq e.lvl ≤ nsq e'.lvl := nsq_double_le hlt
    omega
  · obtain ⟨l', rfl⟩ : ∃ l', l = l' + 2 := ⟨l - 2, by omega⟩
    intro e he
    rw [vcycleEntries] at he
    have hmsz : nsq (l' + 2) ≤ multigrid_size (l' + 2) :=
      nsq_le_multigrid_size (l' + 2)
    have hstep : 2 * nsq (l' + 1) ≤ nsq (l' + 2) := nsq_double_le_succ (l' + 1)
    rcases List.mem_cons.mp he with he | he
    · subst he
      intro k hk
      show v ((2 ^ (l' + 1) + 1) * (2 ^ (l' + 1) + 1) + k) = 0
      apply hv
      have h1 : (2 ^ (l' + 1) + 1) * (2 ^ (l' + 1) + 1) = nsq (l' + 1) := rfl
      have h2 : k < nsq (l' + 1) := hk
      omega
    · refine vcycleInnerEntries_zero G (l' + 1) _ _ _ ?_ ?_ e he
      · intro k hk
        apply hv
        have h4 : 2 * nsq l' ≤ nsq (l' + 1) := nsq_double_le_succ l'
        have h7 : nsq (l' + 1 - 1) = nsq l' := rfl
        have h6 : k < 2 * nsq (l' + 1 - 1) := hk
        omega
      · show 2 * nsq (l' + 1 - 1) ≤ (2 ^ (l' + 1) + 1) * (2 ^ (l' + 1) + 1)
        have h7 : nsq (l' + 1 - 1) = nsq l' := rfl
        have h4 : 2 * nsq l' ≤ nsq (l' + 1) := nsq_double_le_succ l'
        have h1 : (2 ^ (l' + 1) + 1) * (2 ^ (l' + 1) + 1) = nsq (l' + 1) := rfl
        omega

/-- Witness for C3 at a concrete input. -/
theorem C3_arena_disjoint_zero_w :
    ((vcycleEntries trivOps 2 zeroF zeroF zeroF zeroF zeroF 1).map
      CallEntry.lvl).Nodup :=
  (C3_arena_disjoint_zero trivOps 2 zeroF zeroF zeroF zeroF zeroF 1
    (by norm_num) (fun _ _ => rfl) (fun _ _ => rfl)).2.1

/-! ### Memory footprints: frame and read-dependency predicates -/

/-- A smoother writes only within the `n*n` field it is given. -/
def SmFrame (Sm : (ℕ → ℚ) → (ℕ → ℚ) → ℕ → ℚ → (ℕ → ℚ)) : Prop :=
  ∀ (u f : ℕ → ℚ) (n : ℕ) (h : ℚ) (k : ℕ), n * n ≤ k → Sm u f n h k = u k

/-- A smoother reads only within the `n*n` fields it is given: agreeing
inputs give agreeing outputs on the field. -/
def SmCongr (Sm : (ℕ → ℚ) → (ℕ → ℚ) → ℕ → ℚ → (ℕ → ℚ)) : Prop :=
  ∀ (u u' f f' : ℕ → ℚ) (n : ℕ) (h : ℚ),
    agreeBelow u u' (n * n) → agreeBelow f f' (n * n) →
    agreeBelow (Sm u f n h) (Sm u' f' n h) (n * n)

/-- An interpolation kernel reads its source only within the stated
`sn*sm` shape. -/
def KerCongr (K : GridKer) : Prop :=
  ∀ (dn dm sn sm : ℕ) (src src' : ℕ → ℚ) (k : ℕ),
    agreeBelow src src' (sn * sm) → k < dn * dm →
    K dn dm sn sm src k = K dn dm sn sm src' k

lemma gsUpdate_congr {u u' f f' : ℕ → ℚ} {n : ℕ} {h : ℚ} {i j : ℕ}
    (hu : agreeBelow u u' (n * n)) (hf : agreeBelow f f' (n * n))
    (hi1 : 1 ≤ i) (hi2 : i ≤ n - 2) (hj1 : 1 ≤ j) (hj2 : j ≤ n - 2) :
    agreeBelow (gsUpdate f n h i j u) (gsUpdate f' n h i j u') (n * n) := by
  intro k hk
  have hn : 3 ≤ n := by omega
  have hb0 : j + i * n < n * n := key_lt_sq (by omega) (by omega) (by omega)
  have hb1 : j + 1 + i * n < n * n := by
    have e : j + 1 + i * n = (j + 1) + i * n := by ring
    rw [e]; exact key_lt_sq (by omega) (by omega) (by omega)
  have hb2 : j - 1 + i * n < n * n :=
    key_lt_sq (n := n) (by omega) (by omega) (by omega)
  have hb3 : j + (i + 1) * n < n * n :=
    key_lt_sq (by omega) (by omega) (by omega)
  have hb4 : j + (i - 1) * n < n * n :=
    key_lt_sq (by omega) (by omega) (by omega)
  unfold gsUpdate
  split
  · rw [hf _ hb0, hu _ hb1, hu _ hb2, hu _ hb3, hu _ hb4]
  · exact hu k hk

lemma gsCols_congr {f f' : ℕ → ℚ} {n : ℕ} {h : ℚ} {i : ℕ}
    (hf : agreeBelow f f' (n * n)) (hi1 : 1 ≤ i) (hi2 : i ≤ n - 2) :
    ∀ m, m ≤ n - 2 → ∀ {u u' : ℕ → ℚ}, agreeBelow u u' (n * n) →
      agreeBelow (gsCols f n h i m u) (gsCols f' n h i m u') (n * n) := by
  intro m
  induction m with
  | zero => intro _ u u' hu; exact hu
  | succ m ih =>
      intro hm u u' hu
      exact gsUpdate_congr (ih (by omega) hu) hf hi1 hi2 (by omega) hm

lemma gsRows_congr {f f' : ℕ → ℚ} {n : ℕ} {h : ℚ}
    (hf : agreeBelow f f' (n * n)) :
    ∀ m, m ≤ n - 2 → ∀ {u u' : ℕ → ℚ}, agreeBelow u u' (n * n) →
      agreeBelow (gsRows f n h m u) (gsRows f' n h m u') (n * n) := by
  intro m
  induction m with
  | zero => intro _ u u' hu; exact hu
  | succ m ih =>
      intro hm u u' hu
      exact gsCols_congr hf (by omega) hm (n - 2) le_rfl (ih (by omega) hu)

/-- The natural-order smoother writes only within its `n*n` field. -/
lemma gauss_seidel_SmFrame : SmFrame gauss_seidel := by
  intro u f n h k hk
  exact gauss_seidel_frame u f h fun hint => by
    obtain ⟨hlt, _⟩ := hint
    omega

/-- The natural-order smoother reads only within its `n*n` fields. -/
lemma gauss_seidel_SmCongr : SmCongr gauss_seidel := by
  intro u u' f f' n h hu hf
  exact gsRows_congr hf (n - 2) le_rfl hu

lemma resUpdate_congr {r r' u u' f f' : ℕ → ℚ} {n : ℕ} {h : ℚ} {i j : ℕ}
    (hr : agreeBelow r r' (n * n)) (hu : agreeBelow u u' (n * n))
    (hf : agreeBelow f f' (n * n))
    (hi1 : 1 ≤ i) (hi2 : i ≤ n - 2) (hj1 : 1 ≤ j) (hj2 : j ≤ n - 2) :
    agreeBelow (resUpdate u f n h i j r) (resUpdate u' f' n h i j r') (n * n) := by
  intro k hk
  have hn : 3 ≤ n := by omega
  have hb0 : j + i * n < n * n := key_lt_sq (by omega) (by omega) (by omega)
  have hb1 : j + 1 + i * n < n * n := by
    have e : j + 1 + i * n = (j + 1) + i * n := by ring
    rw [e]; exact key_lt_sq (by omega) (by omega) (by omega)
  have hb2 : j - 1 + i * n < n * n :=
    key_lt_sq (n := n) (by omega) (by omega) (by omega)
  have hb3 : j + (i + 1) * n < n * n :=
    key_lt_sq (by omega) (by omega) (by omega)
  have hb4 : j + (i - 1) * n < n * n :=
    key_lt_sq (by omega) (by omega) (by omega)
  unfold resUpdate
  split
  · rw [hf _ hb0, hu _ hb0, hu _ hb1, hu _ hb2, hu _ hb3, hu _ hb4]
  · exact hr k hk

lemma resCols_congr {u u' f f' : ℕ → ℚ} {n : ℕ} {h : ℚ} {i : ℕ}
    (hu : agreeBelow u u' (n * n)) (hf : agreeBelow f f' (n * n))
    (hi1 : 1 ≤ i) (hi2 : i ≤ n - 2) :
    ∀ m, m ≤ n - 2 → ∀ {r r' : ℕ → ℚ}, agreeBelow r r' (n * n) →
      agreeBelow (resCols u f n h i m r) (resCols u' f' n h i m r') (n * n) := by
  intro m
  induction m with
  | zero => intro _ r r' hr; exact hr
  | succ m ih =>
      intro hm r r' hr
      exact resUpdate_congr (ih (by omega) hr) hu hf hi1 hi2 (by omega) hm

lemma resRows_congr {u u' f f' : ℕ → ℚ} {n : ℕ} {h : ℚ}
    (hu : agreeBelow u u' (n * n)) (hf : agreeBelow f f' (n * n)) :
    ∀ m, m ≤ n - 2 → ∀ {r r' : ℕ → ℚ}, agreeBelow r r' (n * n) →
      agreeBelow (resRows u f n h m r) (resRows u' f' n h m r') (n * n) := by
  intro m
  induction m with
  | zero => intro _ r r' hr; exact hr
  | succ m ih =>
      intro hm r r' hr
      exact resCols_congr hu hf (by omega) hm (n - 2) le_rfl (ih (by omega) hr)

/-- The residual operator reads only within its `n*n` fields. -/
lemma poisson_residual_congr {r r' u u' f f' : ℕ → ℚ} {n : ℕ} {h : ℚ}
    (hr : agreeBelow r r' (n * n)) (hu : agreeBelow u u' (n * n))
    (hf : agreeBelow f f' (n * n)) :
    agreeBelow (poisson_residual r u f n h) (poisson_residual r' u' f' n h)
      (n * n) :=
  resRows_congr hu hf (n - 2) le_rfl hr

lemma poisson_residual_ge {r u f : ℕ → ℚ} {n : ℕ} {h : ℚ} {k : ℕ}
    (hk : n * n ≤ k) : poisson_residual r u f n h k = r k :=
  poisson_residual_frame r u f h fun hint => by
    obtain ⟨hlt, _⟩ := hint
    omega

lemma base_case_of_ne {u f : ℕ → ℚ} {h : ℚ} {k : ℕ} (hk : k ≠ 1 + 3 * 1) :
    base_case u f h k = u k := by
  simp [base_case, hk]

lemma grid_restrict_ge {K : GridKer} {dst src : ℕ → ℚ} {dn dm sn sm : ℕ}
    {ew iw : ℚ} {k : ℕ} (hk : dn * dm ≤ k) :
    grid_restrict K dst dn dm src sn sm ew iw k = dst k :=
  if_neg (by omega)

lemma grid_prolongate_ge {K : GridKer} {dst src : ℕ → ℚ} {dn dm sn sm : ℕ}
    {ew iw : ℚ} {k : ℕ} (hk : dn * dm ≤ k) :
    grid_prolongate K dst dn dm src sn sm ew iw k = dst k :=
  if_neg (by omega)

lemma applyAt_frame {b g : ℕ → ℚ} {off m k : ℕ}
    (hg : ∀ j, m ≤ j → g j = b (off + j))
    (hk : ¬ (off ≤ k ∧ k < off + m)) :
    applyAt b off g k = b k := by
  by_cases hko : off ≤ k
  · rw [applyAt_ge hko, hg (k - off) (by omega)]
    congr 1
    omega
  · exact applyAt_below (by omega)

/-! ### Frame property of the V-cycle recursion -/

lemma vcycleInner_one (G : GridOps) (off : ℕ) (s : MGState) (h : ℚ) :
    vcycleInner G 1 off s h =
      ⟨s.r, applyAt s.v off (base_case (view s.v off) (view s.w off) h), s.w⟩ :=
  rfl

lemma vcycleInner_succ_succ (G : GridOps) (l off : ℕ) (s : MGState) (h : ℚ) :
    vcycleInner G (l + 2) off s h =
      vcyclePost G (l + 2) off
        (vcycleInner G (l + 1) ((2 ^ (l + 1) + 1) * (2 ^ (l + 1) + 1))
          (vcyclePre G (l + 2) off s h) (2 * h)) h :=
  rfl

lemma vcyclePre_r (G : GridOps) (l off : ℕ) (s : MGState) (h : ℚ) :
    (vcyclePre G l off s h).r =
      poisson_residual s.r
        (view (applyAt s.v off
          (G.Sm (view s.v off) (view s.w off) (2 ^ l + 1) h)) off)
        (view s.w off) (2 ^ l + 1) h :=
  rfl

lemma vcyclePre_w (G : GridOps) (l off : ℕ) (s : MGState) (h : ℚ) :
    (vcyclePre G l off s h).w =
      applyAt s.w ((2 ^ (l - 1) + 1) * (2 ^ (l - 1) + 1))
        (grid_restrict G.Rker
          (view s.w ((2 ^ (l - 1) + 1) * (2 ^ (l - 1) + 1)))
          (2 ^ (l - 1) + 1) (2 ^ (l - 1) + 1)
          (vcyclePre G l off s h).r (2 ^ l + 1) (2 ^ l + 1) 0 1) :=
  rfl

lemma vcyclePost_r (G : GridOps) (l off : ℕ) (s : MGState) (h : ℚ) :
    (vcyclePost G l off s h).r = s.r :=
  rfl

lemma vcyclePost_w (G : GridOps) (l off : ℕ) (s : MGState) (h : ℚ) :
    (vcyclePost G l off s h).w = s.w :=
  rfl

lemma vcyclePost_v (G : GridOps) (l off : ℕ) (s : MGState) (h : ℚ) :
    (vcyclePost G l off s h).v =
      applyAt
        (applyAt s.v off (grid_prolongate G.Pker (view s.v off)
          (2 ^ l + 1) (2 ^ l + 1)
          (view s.v ((2 ^ (l - 1) + 1) * (2 ^ (l - 1) + 1)))
          (2 ^ (l - 1) + 1) (2 ^ (l - 1) + 1) 1 1))
        off
        (G.Sm
          (view (applyAt s.v off (grid_prolongate G.Pker (view s.v off)
            (2 ^ l + 1) (2 ^ l + 1)
            (view s.v ((2 ^ (l - 1) + 1) * (2 ^ (l - 1) + 1)))
            (2 ^ (l - 1) + 1) (2 ^ (l - 1) + 1) 1 1)) off)
          (view s.w off) (2 ^ l + 1) h) :=
  rfl

lemma applyAt_smoother_frame {Sm : (ℕ → ℚ) → (ℕ → ℚ) → ℕ → ℚ → (ℕ → ℚ)}
    (hSmF : SmFrame Sm) (b fb : ℕ → ℚ) (off n : ℕ) (h : ℚ) {k : ℕ}
    (hk : ¬ (off ≤ k ∧ k < off + n * n)) :
    applyAt b off (Sm (view b off) (view fb off) n h) k = b k :=
  applyAt_frame (fun j hj => hSmF (view b off) (view fb off) n h j hj) hk

lemma applyAt_restrict_frame {K : GridKer} {b src : ℕ → ℚ}
    {off2 dn dm sn sm : ℕ} {ew iw : ℚ} {k : ℕ}
    (hk : ¬ (off2 ≤ k ∧ k < off2 + dn * dm)) :
    applyAt b off2 (grid_restrict K (view b off2) dn dm src sn sm ew iw) k
      = b k :=
  applyAt_frame (fun j hj => grid_restrict_ge hj) hk

lemma applyAt_prolongate_frame {K : GridKer} {b src : ℕ → ℚ}
    {off dn dm sn sm : ℕ} {ew iw : ℚ} {k : ℕ}
    (hk : ¬ (off ≤ k ∧ k < off + dn * dm)) :
    applyAt b off (grid_prolongate K (view b off) dn dm src sn sm ew iw) k
      = b k :=
  applyAt_frame (fun j hj => grid_prolongate_ge hj) hk

/-- Frame property of `vcycleInner`: a call at level `l` with solution offset
`off` changes arena `v` only inside `[off, off + (2^l+1)^2) ∪ [0, (2^l+1)^2)`,
and changes `w` and `r` only inside `[0, (2^l+1)^2)`. -/
lemma vcycleInner_frame (G : GridOps) (hSmF : SmFrame G.Sm) :
    ∀ l (off : ℕ) (s : MGState) (h : ℚ),
      (∀ k, nsq l ≤ k → ¬ (off ≤ k ∧ k < off + nsq l) →
        (vcycleInner G l off s h).v k = s.v k) ∧
      (∀ k, nsq l ≤ k → (vcycleInner G l off s h).w k = s.w k) ∧
      (∀ k, nsq l ≤ k → (vcycleInner G l off s h).r k = s.r k) := by
  intro l
  induction l with
  | zero =>
      intro off s h
      exact ⟨fun k _ _ => rfl, fun k _ => rfl, fun k _ => rfl⟩
  | succ l ih =>
      intro off s h
      cases l with
      | zero =>
          refine ⟨?_, fun k _ => rfl, fun k _ => rfl⟩
          intro k hk hko
          rw [vcycleInner_one]
          show applyAt s.v off (base_case (view s.v off) (view s.w off) h) k
            = s.v k
          refine applyAt_frame (m := nsq 1) (fun j hj => ?_) hko
          exact base_case_of_ne (by
            have : nsq 1 = 9 := rfl
            omega)
      | succ l' =>
          have hnu : 2 * nsq (l' + 1) ≤ nsq (l' + 2) := nsq_double_le_succ _
          have hprod2 : (2 ^ (l' + 2) + 1) * (2 ^ (l' + 2) + 1)
              = nsq (l' + 2) := rfl
          have hprod1 : (2 ^ (l' + 1) + 1) * (2 ^ (l' + 1) + 1)
              = nsq (l' + 1) := rfl
          obtain ⟨ihv, ihw, ihr⟩ :=
            ih ((2 ^ (l' + 1) + 1) * (2 ^ (l' + 1) + 1))
              (vcyclePre G (l' + 2) off s h) (2 * h)
          refine ⟨?_, ?_, ?_⟩
          · intro k hk hko
            have hk2 : nsq (l' + 2) ≤ k := hk
            have hko2 : ¬ (off ≤ k ∧ k < off + nsq (l' + 2)) := hko
            rw [vcycleInner_succ_succ, vcyclePost_v]
            rw [applyAt_smoother_frame hSmF _ _ off (2 ^ (l' + 2) + 1) h
              (by rw [hprod2]; omega)]
            rw [applyAt_prolongate_frame (by
              show ¬ (off ≤ k ∧
                k < off + (2 ^ (l' + 2) + 1) * (2 ^ (l' + 2) + 1))
              rw [hprod2]; omega)]
            rw [ihv k (by omega) (by rw [hprod1]; omega)]
            rw [vcyclePre_v]
            exact applyAt_smoother_frame hSmF _ _ off (2 ^ (l' + 2) + 1) h
              (by rw [hprod2]; omega)
          · intro k hk
            have hk2 : nsq (l' + 2) ≤ k := hk
            rw [vcycleInner_succ_succ, vcyclePost_w]
            rw [ihw k (by omega)]
            rw [vcyclePre_w]
            refine applyAt_restrict_frame ?_
            show ¬ ((2 ^ (l' + 2 - 1) + 1) * (2 ^ (l' + 2 - 1) + 1) ≤ k ∧
              k < (2 ^ (l' + 2 - 1) + 1) * (2 ^ (l' + 2 - 1) + 1) +
                (2 ^ (l' + 2 - 1) + 1) * (2 ^ (l' + 2 - 1) + 1))
            have hp : (2 ^ (l' + 2 - 1) + 1) * (2 ^ (l' + 2 - 1) + 1)
                = nsq (l' + 1) := rfl
            rw [hp]
            omega
          · intro k hk
            have hk2 : nsq (l' + 2) ≤ k := hk
            rw [vcycleInner_succ_succ, vcyclePost_r]
            rw [ihr k (by omega)]
            rw [vcyclePre_r]
            exact poisson_residual_ge (by rw [hprod2]; omega)

/-! ### Read-dependency (congruence) of the V-cycle recursion -/

lemma applyAt_smoother_congr {Sm : (ℕ → ℚ) → (ℕ → ℚ) → ℕ → ℚ → (ℕ → ℚ)}
    (hSmF : SmFrame Sm) (hSmC : SmCongr Sm) {b b' fb fb' : ℕ → ℚ}
    {off n : ℕ} (h : ℚ)
    (hb : ∀ j, j < n * n → b (off + j) = b' (off + j))
    (hfb : ∀ j, j < n * n → fb (off + j) = fb' (off + j))
    {k : ℕ} (hbk : b k = b' k) :
    applyAt b off (Sm (view b off) (view fb off) n h) k =
      applyAt b' off (Sm (view b' off) (view fb' off) n h) k := by
  by_cases hko : off ≤ k
  · rw [applyAt_ge hko, applyAt_ge hko]
    by_cases hlt : k - off < n * n
    · exact hSmC (view b off) (view b' off) (view fb off) (view fb' off) n h
        (fun j hj => hb j hj) (fun j hj => hfb j hj) (k - off) hlt
    · rw [hSmF (view b off) (view fb off) n h (k - off) (by omega),
        hSmF (view b' off) (view fb' off) n h (k - off) (by omega)]
      show b (off + (k - off)) = b' (off + (k - off))
      rw [show off + (k - off) = k from by omega]
      exact hbk
  · rw [applyAt_below (by omega), applyAt_below (by omega)]
    exact hbk

lemma applyAt_restrict_congr {K : GridKer} (hK : KerCongr K)
    {b b' src src' : ℕ → ℚ} {off2 dn dm sn sm : ℕ} {ew iw : ℚ}
    (hsrc : agreeBelow src src' (sn * sm))
    {k : ℕ} (hbk : b k = b' k)
    (hb2 : ∀ j, j < dn * dm → b (off2 + j) = b' (off2 + j)) :
    applyAt b off2 (grid_restrict K (view b off2) dn dm src sn sm ew iw) k =
      applyAt b' off2 (grid_restrict K (view b' off2) dn dm src' sn sm ew iw) k := by
  by_cases hko : off2 ≤ k
  · rw [applyAt_ge hko, applyAt_ge hko]
    unfold grid_restrict
    by_cases hlt : k - off2 < dn * dm
    · rw [if_pos hlt, if_pos hlt,
        hK dn dm sn sm src src' (k - off2) hsrc hlt]
      have hv := hb2 (k - off2) hlt
      show ew * b (off2 + (k - off2)) + _ = ew * b' (off2 + (k - off2)) + _
      rw [hv]
    · rw [if_neg hlt, if_neg hlt]
      show b (off2 + (k - off2)) = b' (off2 + (k - off2))
      rw [show off2 + (k - off2) = k from by omega]
      exact hbk
  · rw [applyAt_below (by omega), applyAt_below (by omega)]
    exact hbk

lemma applyAt_prolongate_congr {K : GridKer} (hK : KerCongr K)
    {b b' : ℕ → ℚ} {off nvoff dn dm sn sm : ℕ} {ew iw : ℚ}
    (hsrc : ∀ j, j < sn * sm → b (nvoff + j) = b' (nvoff + j))
    {k : ℕ} (hbk : b k = b' k)
    (hb2 : ∀ j, j < dn * dm → b (off + j) = b' (off + j)) :
    applyAt b off
        (grid_prolongate K (view b off) dn dm (view b nvoff) sn sm ew iw) k =
      applyAt b' off
        (grid_prolongate K (view b' off) dn dm (view b' nvoff) sn sm ew iw) k := by
  by_cases hko : off ≤ k
  · rw [applyAt_ge hko, applyAt_ge hko]
    unfold grid_prolongate
    by_cases hlt : k - off < dn * dm
    · rw [if_pos hlt, if_pos hlt,
        hK dn dm sn sm (view b nvoff) (view b' nvoff) (k - off)
          (fun j hj => hsrc j hj) hlt]
      have hv := hb2 (k - off) hlt
      show ew * b (off + (k - off)) + _ = ew * b' (off + (k - off)) + _
      rw [hv]
    · rw [if_neg hlt, if_neg hlt]
      show b (off + (k - off)) = b' (off + (k - off))
      rw [show off + (k - off) = k from by omega]
      exact hbk
  · rw [applyAt_below (by omega), applyAt_below (by omega)]
    exact hbk

/-- Read-dependency of `vcycleInner`: the result on the touched regions
depends only on the inputs on `[off, off + (2^l+1)^2) ∪ [0, (2^l+1)^2)` of
the arenas and `[0, (2^l+1)^2)` of the residual scratch. -/
lemma vcycleInner_congr (G : GridOps) (hSmF : SmFrame G.Sm)
    (hSmC : SmCongr G.Sm) (hR : KerCongr G.Rker) (hP : KerCongr G.Pker) :
    ∀ l (off : ℕ) (s s' : MGState) (h : ℚ),
      agreeBelow s.r s'.r (nsq l) →
      (∀ k, k < nsq l ∨ (off ≤ k ∧ k < off + nsq l) → s.v k = s'.v k) →
      (∀ k, k < nsq l ∨ (off ≤ k ∧ k < off + nsq l) → s.w k = s'.w k) →
      agreeBelow (vcycleInner G l off s h).r (vcycleInner G l off s' h).r
        (nsq l) ∧
      (∀ k, k < nsq l ∨ (off ≤ k ∧ k < off + nsq l) →
        (vcycleInner G l off s h).v k = (vcycleInner G l off s' h).v k) ∧
      (∀ k, k < nsq l ∨ (off ≤ k ∧ k < off + nsq l) →
        (vcycleInner G l off s h).w k = (vcycleInner G l off s' h).w k) := by
  intro l
  induction l with
  | zero =>
      intro off s s' h hr hv hw
      exact ⟨hr, hv, hw⟩
  | succ l ih =>
      intro off s s' h hr hv hw
      cases l with
      | zero =>
          refine ⟨hr, ?_, hw⟩
          intro k hk
          rw [vcycleInner_one, vcycleInner_one]
          show applyAt s.v off (base_case (view s.v off) (view s.w off) h) k =
            applyAt s'.v off (base_case (view s'.v off) (view s'.w off) h) k
          have h9 : nsq 1 = 9 := rfl
          by_cases hko : off ≤ k
          · rw [applyAt_ge hko, applyAt_ge hko]
            unfold base_case
            by_cases h4 : k - off = 1 + 3 * 1
            · rw [if_pos h4, if_pos h4]
              have hw4 : s.w (off + (1 + 3 * 1)) = s'.w (off + (1 + 3 * 1)) :=
                hw (off + (1 + 3 * 1)) (Or.inr ⟨by omega, by omega⟩)
              show -(1/2) * s.w (off + (1 + 3 * 1)) * h * h =
                -(1/2) * s'.w (off + (1 + 3 * 1)) * h * h
              rw [hw4]
            · rw [if_neg h4, if_neg h4]
              show s.v (off + (k - off)) = s'.v (off + (k - off))
              rw [show off + (k - off) = k from by omega]
              exact hv k hk
          · rw [applyAt_below (by omega), applyAt_below (by omega)]
            exact hv k hk
      | succ l' =>
          have hprod2 : (2 ^ (l' + 2) + 1) * (2 ^ (l' + 2) + 1)
              = nsq (l' + 2) := rfl
          have hprod1 : (2 ^ (l' + 1) + 1) * (2 ^ (l' + 1) + 1)
              = nsq (l' + 1) := rfl
          have hprodm : (2 ^ (l' + 2 - 1) + 1) * (2 ^ (l' + 2 - 1) + 1)
              = nsq (l' + 1) := rfl
          have hnu : 2 * nsq (l' + 1) ≤ nsq (l' + 2) := nsq_double_le_succ _
          have hr2 : agreeBelow s.r s'.r (nsq (l' + 2)) := hr
          have hv2 : ∀ k, k < nsq (l' + 2) ∨ (off ≤ k ∧ k < off + nsq (l' + 2))
              → s.v k = s'.v k := hv
          have hw2 : ∀ k, k < nsq (l' + 2) ∨ (off ≤ k ∧ k < off + nsq (l' + 2))
              → s.w k = s'.w k := hw
          -- pre-smooth
          have hv1 : ∀ k, k < nsq (l' + 2) ∨ (off ≤ k ∧ k < off + nsq (l' + 2))
              → (vcyclePre G (l' + 2) off s h).v k
                = (vcyclePre G (l' + 2) off s' h).v k := by
            intro k hk
            rw [vcyclePre_v, vcyclePre_v]
            refine applyAt_smoother_congr hSmF hSmC h ?_ ?_ ?_
            · intro j hj
              exact hv2 (off + j) (Or.inr ⟨by omega, by omega⟩)
            · intro j hj
              exact hw2 (off + j) (Or.inr ⟨by omega, by omega⟩)
            · exact hv2 k hk
          -- residual
          have hr1 : agreeBelow (vcyclePre G (l' + 2) off s h).r
              (vcyclePre G (l' + 2) off s' h).r (nsq (l' + 2)) := by
            intro k hk
            rw [vcyclePre_r, vcyclePre_r]
            refine poisson_residual_congr ?_ ?_ ?_ k (by omega)
            · intro j hj
              exact hr2 j (by omega)
            · intro j hj
              exact hv1 (off + j) (Or.inr ⟨by omega, by omega⟩)
            · intro j hj
              exact hw2 (off + j) (Or.inr ⟨by omega, by omega⟩)
          -- restrict
          have hw1 : ∀ k, k < nsq (l' + 2) ∨ (off ≤ k ∧ k < off + nsq (l' + 2))
              → (vcyclePre G (l' + 2) off s h).w k
                = (vcyclePre G (l' + 2) off s' h).w k := by
            intro k hk
            rw [vcyclePre_w, vcyclePre_w]
            refine applyAt_restrict_congr hR ?_ ?_ ?_
            · intro j hj
              exact hr1 j (by omega)
            · exact hw2 k hk
            · intro j hj
              exact hw2 _ (Or.inl (by omega))
          -- the recursive call
          obtain ⟨cr, cv, cw⟩ :=
            ih ((2 ^ (l' + 1) + 1) * (2 ^ (l' + 1) + 1))
              (vcyclePre G (l' + 2) off s h) (vcyclePre G (l' + 2) off s' h)
              (2 * h)
              (fun j hj => hr1 j (by omega))
              (fun k hk => hv1 k (Or.inl (by omega)))
              (fun k hk => hw1 k (Or.inl (by omega)))
          obtain ⟨fv, fw, fr⟩ := vcycleInner_frame G hSmF (l' + 1)
            ((2 ^ (l' + 1) + 1) * (2 ^ (l' + 1) + 1))
            (vcyclePre G (l' + 2) off s h) (2 * h)
          obtain ⟨fv', fw', fr'⟩ := vcycleInner_frame G hSmF (l' + 1)
            ((2 ^ (l' + 1) + 1) * (2 ^ (l' + 1) + 1))
            (vcyclePre G (l' + 2) off s' h) (2 * h)
          have hv2' : ∀ k, k < nsq (l' + 2) ∨ (off ≤ k ∧ k < off + nsq (l' + 2))
              → (vcycleInner G (l' + 1) ((2 ^ (l' + 1) + 1) * (2 ^ (l' + 1) + 1))
                  (vcyclePre G (l' + 2) off s h) (2 * h)).v k
                = (vcycleInner G (l' + 1) ((2 ^ (l' + 1) + 1) * (2 ^ (l' + 1) + 1))
                  (vcyclePre G (l' + 2) off s' h) (2 * h)).v k := by
            intro k hk
            by_cases hsm : k < 2 * nsq (l' + 1)
            · by_cases h1 : k < nsq (l' + 1)
              · exact cv k (Or.inl h1)
              · exact cv k (Or.inr ⟨by omega, by omega⟩)
            · rw [fv k (by omega) (by omega), fv' k (by omega) (by omega)]
              exact hv1 k hk
          have hw2' : ∀ k, k < nsq (l' + 2) ∨ (off ≤ k ∧ k < off + nsq (l' + 2))
              → (vcycleInner G (l' + 1) ((2 ^ (l' + 1) + 1) * (2 ^ (l' + 1) + 1))
                  (vcyclePre G (l' + 2) off s h) (2 * h)).w k
                = (vcycleInner G (l' + 1) ((2 ^ (l' + 1) + 1) * (2 ^ (l' + 1) + 1))
                  (vcyclePre G (l' + 2) off s' h) (2 * h)).w k := by
            intro k hk
            by_cases h1 : k < nsq (l' + 1)
            · exact cw k (Or.inl h1)
            · rw [fw k (by omega), fw' k (by omega)]
              exact hw1 k hk
          have hr2' : agreeBelow
              (vcycleInner G (l' + 1) ((2 ^ (l' + 1) + 1) * (2 ^ (l' + 1) + 1))
                (vcyclePre G (l' + 2) off s h) (2 * h)).r
              (vcycleInner G (l' + 1) ((2 ^ (l' + 1) + 1) * (2 ^ (l' + 1) + 1))
                (vcyclePre G (l' + 2) off s' h) (2 * h)).r (nsq (l' + 2)) := by
            intro k hk
            by_cases h1 : k < nsq (l' + 1)
            · exact cr k h1
            · rw [fr k (by omega), fr' k (by omega)]
              exact hr1 k hk
          -- prolongate and post-smooth
          have hv3 : ∀ k, k < nsq (l' + 2) ∨ (off ≤ k ∧ k < off + nsq (l' + 2))
              → applyAt
                  (vcycleInner G (l' + 1) ((2 ^ (l' + 1) + 1) * (2 ^ (l' + 1) + 1))
                    (vcyclePre G (l' + 2) off s h) (2 * h)).v off
                  (grid_prolongate G.Pker
                    (view (vcycleInner G (l' + 1)
                      ((2 ^ (l' + 1) + 1) * (2 ^ (l' + 1) + 1))
                      (vcyclePre G (l' + 2) off s h) (2 * h)).v off)
                    (2 ^ (l' + 2) + 1) (2 ^ (l' + 2) + 1)
                    (view (vcycleInner G (l' + 1)
                      ((2 ^ (l' + 1) + 1) * (2 ^ (l' + 1) + 1))
                      (vcyclePre G (l' + 2) off s h) (2 * h)).v
                      ((2 ^ (l' + 2 - 1) + 1) * (2 ^ (l' + 2 - 1) + 1)))
                    (2 ^ (l' + 2 - 1) + 1) (2 ^ (l' + 2 - 1) + 1) 1 1) k
                = applyAt
                  (vcycleInner G (l' + 1) ((2 ^ (l' + 1) + 1) * (2 ^ (l' + 1) + 1))
                    (vcyclePre G (l' + 2) off s' h) (2 * h)).v off
                  (grid_prolongate G.Pker
                    (view (vcycleInner G (l' + 1)
                      ((2 ^ (l' + 1) + 1) * (2 ^ (l' + 1) + 1))
                      (vcyclePre G (l' + 2) off s' h) (2 * h)).v off)
                    (2 ^ (l' + 2) + 1) (2 ^ (l' + 2) + 1)
                    (view (vcycleInner G (l' + 1)
                      ((2 ^ (l' + 1) + 1) * (2 ^ (l' + 1) + 1))
                      (vcyclePre G (l' + 2) off s' h) (2 * h)).v
                      ((2 ^ (l' + 2 - 1) + 1) * (2 ^ (l' + 2 - 1) + 1)))
                    (2 ^ (l' + 2 - 1) + 1) (2 ^ (l' + 2 - 1) + 1) 1 1) k := by
            intro k hk
            refine applyAt_prolongate_congr hP ?_ ?_ ?_
            · intro j hj
              exact hv2' _ (Or.inl (by omega))
            · exact hv2' k hk
            · intro j hj
              exact hv2' (off + j) (Or.inr ⟨by omega, by omega⟩)
          refine ⟨?_, ?_, ?_⟩
          · intro k hk
            rw [vcycleInner_succ_succ, vcycleInner_succ_succ,
              vcyclePost_r, vcyclePost_r]
            exact hr2' k hk
          · intro k hk
            rw [vcycleInner_succ_succ, vcycleInner_succ_succ,
              vcyclePost_v, vcyclePost_v]
            refine applyAt_smoother_congr hSmF hSmC h ?_ ?_ ?_
            · intro j hj
              exact hv3 (off + j) (Or.inr ⟨by omega, by omega⟩)
            · intro j hj
              exact hw2' (off + j) (Or.inr ⟨by omega, by omega⟩)
            · exact hv3 k hk
          · intro k hk
            rw [vcycleInner_succ_succ, vcycleInner_succ_succ,
              vcyclePost_w, vcyclePost_w]
            exact hw2' k hk

/-! ### Top-level V-cycle: the let-bound intermediates of multigrid_v_cycle -/

/-- The residual scratch after the top-level pre-smooth and residual steps
(the let-bound `r1` of `multigrid_v_cycle` at level `l+2`). -/
def topR1 (G : GridOps) (l : ℕ) (u f r : ℕ → ℚ) (h : ℚ) : ℕ → ℚ :=
  poisson_residual r (G.Sm u f (2 ^ (l + 2) + 1) h) f (2 ^ (l + 2) + 1) h

/-- The `w` arena after the top-level restriction (the let-bound `w1`). -/
def topW1 (G : GridOps) (l : ℕ) (u f r w : ℕ → ℚ) (h : ℚ) : ℕ → ℚ :=
  applyAt w ((2 ^ (l + 1) + 1) * (2 ^ (l + 1) + 1))
    (grid_restrict G.Rker (view w ((2 ^ (l + 1) + 1) * (2 ^ (l + 1) + 1)))
      (2 ^ (l + 1) + 1) (2 ^ (l + 1) + 1) (topR1 G l u f r h)
      (2 ^ (l + 2) + 1) (2 ^ (l + 2) + 1) 0 1)

/-- The scratch state after the top-level recursive call (the let-bound
`s2`). -/
def topS2 (G : GridOps) (l : ℕ) (u f r v w : ℕ → ℚ) (h : ℚ) : MGState :=
  vcycleInner G (l + 1) ((2 ^ (l + 1) + 1) * (2 ^ (l + 1) + 1))
    ⟨topR1 G l u f r h, v, topW1 G l u f r w h⟩ (2 * h)

/-- The solution after prolongation and the post-smooth (the final `u`). -/
def topU (G : GridOps) (l : ℕ) (u f r v w : ℕ → ℚ) (h : ℚ) : ℕ → ℚ :=
  G.Sm
    (grid_prolongate G.Pker (G.Sm u f (2 ^ (l + 2) + 1) h)
      (2 ^ (l + 2) + 1) (2 ^ (l + 2) + 1)
      (view (topS2 G l u f r v w h).v ((2 ^ (l + 1) + 1) * (2 ^ (l + 1) + 1)))
      (2 ^ (l + 1) + 1) (2 ^ (l + 1) + 1) 1 1)
    f (2 ^ (l + 2) + 1) h

lemma multigrid_v_cycle_unfold (G : GridOps) (l : ℕ) (u f r v w : ℕ → ℚ)
    (h : ℚ) :
    multigrid_v_cycle G (l + 2) u f r v w h =
      ⟨topU G l u f r v w h, topS2 G l u f r v w h⟩ :=
  rfl

lemma top_frame (G : GridOps) (hSmF : SmFrame G.Sm) (l : ℕ)
    (u f r v w : ℕ → ℚ) (h : ℚ) :
    (∀ k, nsq (l + 2) ≤ k → topU G l u f r v w h k = u k) ∧
    (∀ k, nsq (l + 2) ≤ k → (topS2 G l u f r v w h).r k = r k) ∧
    (∀ k, multigrid_size (l + 2) ≤ k → (topS2 G l u f r v w h).v k = v k) ∧
    (∀ k, multigrid_size (l + 2) ≤ k → (topS2 G l u f r v w h).w k = w k) := by
  have hprod2 : (2 ^ (l + 2) + 1) * (2 ^ (l + 2) + 1) = nsq (l + 2) := rfl
  have hprod1 : (2 ^ (l + 1) + 1) * (2 ^ (l + 1) + 1) = nsq (l + 1) := rfl
  have hnu : 2 * nsq (l + 1) ≤ nsq (l + 2) := nsq_double_le_succ _
  have hms : nsq (l + 2) ≤ multigrid_size (l + 2) := nsq_le_multigrid_size _
  obtain ⟨fv, fw, fr⟩ := vcycleInner_frame G hSmF (l + 1)
    ((2 ^ (l + 1) + 1) * (2 ^ (l + 1) + 1))
    ⟨topR1 G l u f r h, v, topW1 G l u f r w h⟩ (2 * h)
  refine ⟨?_, ?_, ?_, ?_⟩
  · intro k hk
    unfold topU
    rw [hSmF _ _ _ _ k (by omega), grid_prolongate_ge (by omega)]
    exact hSmF _ _ _ _ k (by omega)
  · intro k hk
    show (topS2 G l u f r v w h).r k = r k
    unfold topS2
    rw [fr k (by omega)]
    show topR1 G l u f r h k = r k
    unfold topR1
    exact poisson_residual_ge (by omega)
  · intro k hk
    show (topS2 G l u f r v w h).v k = v k
    unfold topS2
    exact fv k (by omega) (by omega)
  · intro k hk
    show (topS2 G l u f r v w h).w k = w k
    unfold topS2
    rw [fw k (by omega)]
    show topW1 G l u f r w h k = w k
    unfold topW1
    exact applyAt_restrict_frame (by omega)

lemma top_congr (G : GridOps) (hSmF : SmFrame G.Sm) (hSmC : SmCongr G.Sm)
    (hR : KerCongr G.Rker) (hP : KerCongr G.Pker) (l : ℕ)
    (u f r v w u' f' r' v' w' : ℕ → ℚ) (h : ℚ)
    (hu : agreeBelow u u' (nsq (l + 2)))
    (hf : agreeBelow f f' (nsq (l + 2)))
    (hr : agreeBelow r r' (nsq (l + 2)))
    (hv : agreeBelow v v' (multigrid_size (l + 2)))
    (hw : agreeBelow w w' (multigrid_size (l + 2))) :
    agreeBelow (topU G l u f r v w h) (topU G l u' f' r' v' w' h)
      (nsq (l + 2)) ∧
    agreeBelow (topS2 G l u f r v w h).r (topS2 G l u' f' r' v' w' h).r
      (nsq (l + 2)) ∧
    agreeBelow (topS2 G l u f r v w h).v (topS2 G l u' f' r' v' w' h).v
      (multigrid_size (l + 2)) ∧
    agreeBelow (topS2 G l u f r v w h).w (topS2 G l u' f' r' v' w' h).w
      (multigrid_size (l + 2)) := by
  have hprod2 : (2 ^ (l + 2) + 1) * (2 ^ (l + 2) + 1) = nsq (l + 2) := rfl
  have hprod1 : (2 ^ (l + 1) + 1) * (2 ^ (l + 1) + 1) = nsq (l + 1) := rfl
  have hnu : 2 * nsq (l + 1) ≤ nsq (l + 2) := nsq_double_le_succ _
  have hms : nsq (l + 2) ≤ multigrid_size (l + 2) := nsq_le_multigrid_size _
  have hu1 : agreeBelow (G.Sm u f (2 ^ (l + 2) + 1) h)
      (G.Sm u' f' (2 ^ (l + 2) + 1) h)
      ((2 ^ (l + 2) + 1) * (2 ^ (l + 2) + 1)) :=
    hSmC u u' f f' _ h (fun j hj => hu j (by omega))
      (fun j hj => hf j (by omega))
  have hr1 : agreeBelow (topR1 G l u f r h) (topR1 G l u' f' r' h)
      ((2 ^ (l + 2) + 1) * (2 ^ (l + 2) + 1)) := by
    unfold topR1
    exact poisson_residual_congr (fun j hj => hr j (by omega)) hu1
      (fun j hj => hf j (by omega))
  have hw1 : ∀ k, k < multigrid_size (l + 2) →
      topW1 G l u f r w h k = topW1 G l u' f' r' w' h k := by
    intro k hk
    unfold topW1
    refine applyAt_restrict_congr hR hr1 (hw k hk) ?_
    intro j hj
    exact hw _ (by omega)
  obtain ⟨cr, cv, cw⟩ := vcycleInner_congr G hSmF hSmC hR hP (l + 1)
    ((2 ^ (l + 1) + 1) * (2 ^ (l + 1) + 1))
    ⟨topR1 G l u f r h, v, topW1 G l u f r w h⟩
    ⟨topR1 G l u' f' r' h, v', topW1 G l u' f' r' w' h⟩ (2 * h)
    (fun j hj => hr1 j (by omega))
    (by
      intro k hk
      show v k = v' k
      apply hv
      rcases hk with hk | ⟨hk1, hk2⟩ <;> omega)
    (by
      intro k hk
      show topW1 G l u f r w h k = topW1 G l u' f' r' w' h k
      apply hw1
      rcases hk with hk | ⟨hk1, hk2⟩ <;> omega)
  obtain ⟨fv, fw, fr⟩ := vcycleInner_frame G hSmF (l + 1)
    ((2 ^ (l + 1) + 1) * (2 ^ (l + 1) + 1))
    ⟨topR1 G l u f r h, v, topW1 G l u f r w h⟩ (2 * h)
  obtain ⟨fv', fw', fr'⟩ := vcycleInner_frame G hSmF (l + 1)
    ((2 ^ (l + 1) + 1) * (2 ^ (l + 1) + 1))
    ⟨topR1 G l u' f' r' h, v', topW1 G l u' f' r' w' h⟩ (2 * h)
  have sv : ∀ k, k < multigrid_size (l + 2) →
      (topS2 G l u f r v w h).v k = (topS2 G l u' f' r' v' w' h).v k := by
    intro k hk
    show (topS2 G l u f r v w h).v k = (topS2 G l u' f' r' v' w' h).v k
    unfold topS2
    by_cases hsm : k < 2 * nsq (l + 1)
    · by_cases h1 : k < nsq (l + 1)
      · exact cv k (Or.inl h1)
      · exact cv k (Or.inr ⟨by omega, by omega⟩)
    · rw [fv k (by omega) (by omega), fv' k (by omega) (by omega)]
      exact hv k hk
  have sw : ∀ k, k < multigrid_size (l + 2) →
      (topS2 G l u f r v w h).w k = (topS2 G l u' f' r' v' w' h).w k := by
    intro k hk
    unfold topS2
    by_cases h1 : k < nsq (l + 1)
    · exact cw k (Or.inl h1)
    · rw [fw k (by omega), fw' k (by omega)]
      exact hw1 k hk
  have sr : agreeBelow (topS2 G l u f r v w h).r
      (topS2 G l u' f' r' v' w' h).r (nsq (l + 2)) := by
    intro k hk
    unfold topS2
    by_cases h1 : k < nsq (l + 1)
    · exact cr k h1
    · rw [fr k (by omega), fr' k (by omega)]
      exact hr1 k (by omega)
  have hup : agreeBelow
      (grid_prolongate G.Pker (G.Sm u f (2 ^ (l + 2) + 1) h)
        (2 ^ (l + 2) + 1) (2 ^ (l + 2) + 1)
        (view (topS2 G l u f r v w h).v
          ((2 ^ (l + 1) + 1) * (2 ^ (l + 1) + 1)))
        (2 ^ (l + 1) + 1) (2 ^ (l + 1) + 1) 1 1)
      (grid_prolongate G.Pker (G.Sm u' f' (2 ^ (l + 2) + 1) h)
        (2 ^ (l + 2) + 1) (2 ^ (l + 2) + 1)
        (view (topS2 G l u' f' r' v' w' h).v
          ((2 ^ (l + 1) + 1) * (2 ^ (l + 1) + 1)))
        (2 ^ (l + 1) + 1) (2 ^ (l + 1) + 1) 1 1)
      ((2 ^ (l + 2) + 1) * (2 ^ (l + 2) + 1)) := by
    intro j hj
    unfold grid_prolongate
    rw [if_pos hj, if_pos hj, hu1 j hj,
      hP (2 ^ (l + 2) + 1) (2 ^ (l + 2) + 1) (2 ^ (l + 1) + 1)
        (2 ^ (l + 1) + 1)
        (view (topS2 G l u f r v w h).v
          ((2 ^ (l + 1) + 1) * (2 ^ (l + 1) + 1)))
        (view (topS2 G l u' f' r' v' w' h).v
          ((2 ^ (l + 1) + 1) * (2 ^ (l + 1) + 1)))
        j
        (fun t ht =>
          sv ((2 ^ (l + 1) + 1) * (2 ^ (l + 1) + 1) + t) (by omega)) hj]
  have su : agreeBelow (topU G l u f r v w h) (topU G l u' f' r' v' w' h)
      (nsq (l + 2)) := by
    intro k hk
    unfold topU
    exact hSmC _ _ f f' _ h hup (fun j hj => hf j (by omega)) k (by omega)
  exact ⟨su, sr, sv, sw⟩

/-- C4: `multigrid_size(l)` is exactly `Σ_{i=0}^{l} (2^i+1)^2`, and one
V-cycle at level `l ≥ 1` stays inside its buffers: it never writes `u` or the
residual scratch `r` outside `[0, (2^l+1)^2)` nor the arenas `v`, `w` outside
`[0, multigrid_size l)` (the frame conjuncts), and it never reads outside
those regions either: two input quintuples agreeing on those regions produce
results agreeing there (the congruence conjunct).  The hypotheses state the
claim's assumption that the smoother and the external restrict/prolongate
kernels access only their stated shapes; `gauss_seidel` satisfies them
(`gauss_seidel_SmFrame`, `gauss_seidel_SmCongr`). -/
theorem C4_size_and_memory_safety (G : GridOps) (hSmF : SmFrame G.Sm)
    (hSmC : SmCongr G.Sm) (hR : KerCongr G.Rker) (hP : KerCongr G.Pker)
    (l : ℕ) (hl : 1 ≤ l) (u f r v w u' f' r' v' w' : ℕ → ℚ) (h : ℚ) :
    multigrid_size l = ∑ i ∈ Finset.range (l + 1), (2 ^ i + 1) ^ 2 ∧
    (∀ k, nsq l ≤ k → (multigrid_v_cycle G l u f r v w h).u k = u k) ∧
    (∀ k, nsq l ≤ k → (multigrid_v_cycle G l u f r v w h).s.r k = r k) ∧
    (∀ k, multigrid_size l ≤ k →
      (multigrid_v_cycle G l u f r v w h).s.v k = v k) ∧
    (∀ k, multigrid_size l ≤ k →
      (multigrid_v_cycle G l u f r v w h).s.w k = w k) ∧
    (agreeBelow u u' (nsq l) → agreeBelow f f' (nsq l) →
      agreeBelow r r' (nsq l) → agreeBelow v v' (multigrid_size l) →
      agreeBelow w w' (multigrid_size l) →
        agreeBelow (multigrid_v_cycle G l u f r v w h).u
          (multigrid_v_cycle G l u' f' r' v' w' h).u (nsq l) ∧
        agreeBelow (multigrid_v_cycle G l u f r v w h).s.r
          (multigrid_v_cycle G l u' f' r' v' w' h).s.r (nsq l) ∧
        agreeBelow (multigrid_v_cycle G l u f r v w h).s.v
          (multigrid_v_cycle G l u' f' r' v' w' h).s.v (multigrid_size l) ∧
        agreeBelow (multigrid_v_cycle G l u f r v w h).s.w
          (multigrid_v_cycle G l u' f' r' v' w' h).s.w (multigrid_size l)) := by
  refine ⟨multigrid_size_eq_sum l, ?_⟩
  match l, hl with
  | 1, _ =>
      have h9 : nsq 1 = 9 := rfl
      refine ⟨?_, fun k _ => rfl, fun k _ => rfl, fun k _ => rfl, ?_⟩
      · intro k hk
        show base_case u f h k = u k
        exact base_case_of_ne (by omega)
      · intro hu hf hr hv hw
        refine ⟨?_, fun k hk => hr k hk, fun k hk => hv k hk,
          fun k hk => hw k hk⟩
        intro k hk
        show base_case u f h k = base_case u' f' h k
        unfold base_case
        by_cases h4 : k = 1 + 3 * 1
        · rw [if_pos h4, if_pos h4, hf (1 + 3 * 1) (by omega)]
        · rw [if_neg h4, if_neg h4]
          exact hu k hk
  | (l'' + 2), _ =>
      obtain ⟨tfu, tfr, tfv, tfw⟩ := top_frame G hSmF l'' u f r v w h
      refine ⟨tfu, tfr, tfv, tfw, ?_⟩
      intro hu hf hr hv hw
      obtain ⟨su, sr, sv, sw⟩ := top_congr G hSmF hSmC hR hP l''
        u f r v w u' f' r' v' w' h hu hf hr hv hw
      exact ⟨su, sr, sv, sw⟩

/-- Operator bundle with the repository's natural-order smoother and zero
grid-transfer kernels, used to instantiate the safety theorem. -/
def gsOps : GridOps :=
  ⟨gauss_seidel, fun _ _ _ _ _ _ => 0, fun _ _ _ _ _ _ => 0⟩

/-- Witness for C4 at a concrete input (level 1, `gauss_seidel` smoother). -/
theorem C4_size_and_memory_safety_w :
    multigrid_size 1 = ∑ i ∈ Finset.range 2, (2 ^ i + 1) ^ 2 ∧
    (multigrid_v_cycle gsOps 1 zeroF zeroF zeroF zeroF zeroF 1).u 9 =
      zeroF 9 :=
  ⟨(C4_size_and_memory_safety gsOps gauss_seidel_SmFrame gauss_seidel_SmCongr
      (fun _ _ _ _ _ _ _ _ _ => rfl) (fun _ _ _ _ _ _ _ _ _ => rfl) 1
      (by norm_num) zeroF zeroF zeroF zeroF zeroF zeroF zeroF zeroF zeroF
      zeroF 1).1,
   (C4_size_and_memory_safety gsOps gauss_seidel_SmFrame gauss_seidel_SmCongr
      (fun _ _ _ _ _ _ _ _ _ => rfl) (fun _ _ _ _ _ _ _ _ _ => rfl) 1
      (by norm_num) zeroF zeroF zeroF zeroF zeroF zeroF zeroF zeroF zeroF
      zeroF 1).2.1 9 (by decide)⟩
